import Mathlib

/-!
# Verification of the ngx-role-accessor RBAC core

Shallow embedding of the library's algorithmic core, translated from the
TypeScript sources:

* `lru-cache.ts`            — the TTL-LRU cache (`LruCache`),
* `role-hierarchy.manager.ts` — the role hierarchy resolver
  (`RoleHierarchyManager`),
* `role.service.ts` (enhanced v2 service) — the decision engine and
  context store (`RoleService`).

Modelling conventions:

* JavaScript `Map` objects are modelled as association lists in insertion
  order (oldest binding first), which is exactly the iteration order a JS
  `Map` guarantees; `Map.delete` removes the unique binding of the key
  (bindings are unique by construction, so a filter is observationally
  identical).
* `Date.now()` is passed in explicitly as a `Nat` parameter `now`;
  timestamps never decrease in any scenario considered, matching the
  subtraction `now - entry.timestamp` on naturals.
* JavaScript truthiness on optional strings (`if (tenantId)`,
  `ttl || defaultTtl`, `if (firstKey)`) is modelled explicitly: `none` and
  `some ""` are falsy, `0` is falsy for numbers.
* Thrown `RbacError`s are modelled with `Except`; the unbounded recursion
  of the hierarchy resolver is modelled with explicit fuel, where `none`
  denotes fuel exhaustion (proved unreachable for the fuel the embedding
  supplies).
-/

/-- `p` is a prefix of `s`, on the character lists (the byte-level
`String.isPrefixOf` of core Lean is semantically identical but does not
reduce in the kernel). -/
def strHasPrefix (p s : String) : Bool :=
  p.data.isPrefixOf s.data

/-- `s.includes(sub)` — substring containment, on the character lists. -/
def strContains (s sub : String) : Bool :=
  decide (sub.data <:+: s.data)

/-- Lexicographic comparison of character lists by code point — the
order JS `Array.sort()` uses for strings (UTF-16 code units, which agree
with code points on the scenarios considered). -/
def charListLe : List Char → List Char → Bool
  | [], _ => true
  | _ :: _, [] => false
  | c1 :: t1, c2 :: t2 =>
    if c1.toNat < c2.toNat then true
    else if c2.toNat < c1.toNat then false
    else charListLe t1 t2

/-- String comparison for the JS default sort. -/
def strLe (a b : String) : Bool := charListLe a.data b.data

/-- Insert into a sorted list (stable insertion sort step). -/
def insertSorted (x : String) : List String → List String
  | [] => [x]
  | y :: ys => if strLe x y then x :: y :: ys else y :: insertSorted x ys

/-- JS `Array.sort()` on strings: a stable sort by the lexicographic
order; insertion sort gives the same (canonical) result. -/
def sortStrings (l : List String) : List String :=
  l.foldr insertSorted []

/-- JS truthiness of an optional string: `undefined` and `""` are falsy. -/
def jsTruthy : Option String → Bool
  | none => false
  | some s => s ≠ ""

/-- JS `a || b` on an optional number, where `0` (and `undefined`) falls
through to the default — as in `ttl || this.defaultTtl`. -/
def jsOrNat (a : Option Nat) (b : Nat) : Nat :=
  match a with
  | none => b
  | some n => if n = 0 then b else n

/-- `Role` record from `rbac.types.ts`.  The fields `description` and
`metadata` are never read by the embedded code and are omitted. -/
structure Role where
  id : String
  name : String
  level : Option Int := none
  parentRoleId : Option String := none
  active : Bool
  tenantId : Option String := none
deriving Repr, DecidableEq

/-- `Permission` record from `rbac.types.ts` (fields `description` and
`conditions` are never read by the embedded code and are omitted). -/
structure Permission where
  id : String
  name : String
  resource : String
  action : String
  active : Bool
  tenantId : Option String := none
deriving Repr, DecidableEq

/-- `UserContext` record from `rbac.types.ts` (`sessionData` and
`lastUpdated` are only copied into audit metadata, never branched on, and
are omitted). -/
structure UserContext where
  userId : String
  roles : List Role
  permissions : List Permission
  tenantId : Option String := none
deriving Repr, DecidableEq

/-- `PermissionCheckResult` from `rbac.types.ts` (`metadata` is never set
by the service and is omitted). -/
structure PermissionCheckResult where
  granted : Bool
  reason : Option String := none
  grantingRoles : Option (List String) := none
  grantingPermissions : Option (List String) := none
deriving Repr, DecidableEq

/-- The `RbacErrorCode` enum values used by the embedded code. -/
inductive RbacErrorCode where
  | INVALID_ROLE
  | INVALID_PERMISSION
  | INVALID_TENANT
  | ACCESS_DENIED
  | CONFIGURATION_ERROR
  | CACHE_ERROR
  | HIERARCHY_ERROR
deriving Repr, DecidableEq

/-- `RbacError` (message + code; the free-form `context` payload is not
modelled). -/
structure RbacError where
  message : String
  code : RbacErrorCode
deriving Repr, DecidableEq

/-! ## LruCache (`utils/lru-cache.ts`) -/

/-- `CacheEntry<T>` from `rbac.types.ts`. -/
structure CacheEntry (T : Type) where
  value : T
  timestamp : Nat
  ttl : Nat
  key : String
deriving Repr, DecidableEq

/-- The `LruCache<T>` object: `entries` is the backing JS `Map` in
insertion order (least recently used first).  `maxSize` is an `Int`
because the TS constructor accepts any number, including non-positive
ones. -/
structure LruCache (T : Type) where
  maxSize : Int
  defaultTtl : Nat
  entries : List (String × CacheEntry T)
deriving Repr, DecidableEq

namespace LruCache

/-- The `LruCache` constructor: stores `maxSize` and `defaultTtl`
unvalidated (TS defaults: 1000 and 300000). -/
def mk' (T : Type) (maxSize : Int := 1000) (defaultTtl : Nat := 300000) :
    LruCache T :=
  { maxSize := maxSize, defaultTtl := defaultTtl, entries := [] }

/-- JS `Map.get`: the binding for `k`, if present. -/
def mapGet {T : Type} (entries : List (String × CacheEntry T)) (k : String) :
    Option (CacheEntry T) :=
  (entries.find? (fun kv => kv.1 = k)).map (·.2)

/-- JS `Map.delete`: drop the binding of `k` (keys are unique in a JS
`Map`, so dropping every binding of `k` is the same operation). -/
def mapDelete {T : Type} (entries : List (String × CacheEntry T))
    (k : String) : List (String × CacheEntry T) :=
  entries.filter (fun kv => kv.1 ≠ k)

/-- `LruCache.set(key, value, ttl?)` at time `now`.  Mirrors the source:
build the entry with `ttl: ttl || this.defaultTtl`, delete an existing
binding to refresh its position, insert at the most-recently-used end,
then — if the size now exceeds `maxSize` — delete the first key of the
map, guarded by the JS truthiness test `if (firstKey)` (so an
empty-string first key is *not* deleted). -/
def set {T : Type} (c : LruCache T) (key : String) (value : T)
    (ttl : Option Nat) (now : Nat) : LruCache T :=
  let entry : CacheEntry T :=
    { value := value, timestamp := now, ttl := jsOrNat ttl c.defaultTtl,
      key := key }
  let entries1 :=
    if (mapGet c.entries key).isSome then mapDelete c.entries key
    else c.entries
  let entries2 := entries1 ++ [(key, entry)]
  let entries3 :=
    if (entries2.length : Int) > c.maxSize then
      match entries2 with
      | [] => entries2
      | (firstKey, _) :: _ =>
        if firstKey ≠ "" then mapDelete entries2 firstKey else entries2
    else entries2
  { c with entries := entries3 }

/-- `LruCache.get(key)` at time `now`: returns the value (and the updated
cache).  A missing key is a miss; an entry with
`now - entry.timestamp > entry.ttl` is deleted lazily and is a miss; a
hit repositions the entry at the most-recently-used end. -/
def get {T : Type} (c : LruCache T) (key : String) (now : Nat) :
    Option T × LruCache T :=
  match mapGet c.entries key with
  | none => (none, c)
  | some entry =>
    if now - entry.timestamp > entry.ttl then
      (none, { c with entries := mapDelete c.entries key })
    else
      (some entry.value,
       { c with entries := mapDelete c.entries key ++ [(key, entry)] })

/-- `LruCache.invalidatePattern(pattern)`: remove every entry whose key
matches the predicate; returns the new cache (the removed count is not
modelled). -/
def invalidatePattern {T : Type} (c : LruCache T) (pat : String → Bool) :
    LruCache T :=
  { c with entries := c.entries.filter (fun kv => ¬ pat kv.1) }

/-- `LruCache.clear()`. -/
def clear {T : Type} (c : LruCache T) : LruCache T :=
  { c with entries := [] }

/-- The keys of the cache, oldest first (`LruCache.keys()`). -/
def keyList {T : Type} (c : LruCache T) : List String :=
  c.entries.map (·.1)

end LruCache

/-- The experiment of the cache-eviction claim: insert each key of `keys`
in order with `set(key, v)` (no explicit TTL) at time `now`. -/
def insertAllAt {T : Type} (c : LruCache T) (keys : List String) (v : T)
    (now : Nat) : LruCache T :=
  keys.foldl (fun acc k => acc.set k v none now) c

/-! ## Role hierarchy manager (`utils/role-hierarchy.manager.ts`) -/

/-- `allRoles.find(r => r.id === roleId)` — first match wins, as in JS
`Array.prototype.find`. -/
def findRoleById (allRoles : List Role) (roleId : String) : Option Role :=
  allRoles.find? (fun r => r.id = roleId)

/-- The tenant filter inside `resolveRoleRecursively`:
`tenantId && role.tenantId && role.tenantId !== tenantId` (JS truthiness,
so an undefined or empty tenant on either side disables the cut). -/
def tenantCuts (tenantId : Option String) (roleTenant : Option String) :
    Bool :=
  jsTruthy tenantId && jsTruthy roleTenant && roleTenant ≠ tenantId

/-- `Set.add` on a set modelled as an insertion-ordered duplicate-free
list: append if absent. -/
def setAdd {α : Type} [DecidableEq α] (l : List α) (a : α) : List α :=
  if a ∈ l then l else l ++ [a]

/-- `Set.delete` on the same model. -/
def setDelete {α : Type} [DecidableEq α] (l : List α) (a : α) : List α :=
  l.filter (fun x => x ≠ a)

/-- One parent-lookup step of the resolver: `role.parentRoleId` must be
JS-truthy (a present, non-empty id), and the parent is the first role of
the universe with that id.  `none` covers "no parent" and "dangling
parent" alike — both terminate the branch. -/
def parentStep (allRoles : List Role) (r : Role) : Option Role :=
  match r.parentRoleId with
  | none => none
  | some pid => if pid = "" then none else findRoleById allRoles pid

/-- The parent chain from a role: `chainFn allRoles r 0 = some r`, and
each further index follows one `parentStep`.  This is the mathematical
reference object the resolver is proved against. -/
def chainFn (allRoles : List Role) (r : Role) : Nat → Option Role
  | 0 => some r
  | n + 1 => (chainFn allRoles r n).bind (parentStep allRoles)

/-- The `RbacError` thrown by `resolveRoleRecursively` on a revisit of a
role already on the active path. -/
def circularError (roleId : String) : RbacError :=
  { message := "Circular dependency detected in role hierarchy: " ++ roleId,
    code := RbacErrorCode.HIERARCHY_ERROR }

/-- `RoleHierarchyManager.resolveRoleRecursively`, with explicit fuel
(`none` = fuel exhausted, an artifact of the embedding).  State passed
through: `resolved` is the accumulated `resolvedRoles` set (insertion
order), `path` the `processedRoleIds` set of ids on the active path.
Mirrors the source: throw on a revisit; return silently when the tenant
filter cuts the role; otherwise record the role, recurse into the parent
when it is present and found (a dangling parent only logs a warning), and
remove the role from the active path before returning. -/
def resolveRec (allRoles : List Role) (tenantId : Option String) :
    Nat → Role → List Role → List String →
    Option (Except RbacError (List Role × List String))
  | 0, _, _, _ => none
  | fuel + 1, role, resolved, path =>
    if role.id ∈ path then
      some (Except.error (circularError role.id))
    else if tenantCuts tenantId role.tenantId then
      some (Except.ok (resolved, path))
    else
      let path1 := setAdd path role.id
      let resolved1 := setAdd resolved role
      match parentStep allRoles role with
      | none => some (Except.ok (resolved1, setDelete path1 role.id))
      | some parent =>
        match resolveRec allRoles tenantId fuel parent resolved1 path1 with
        | none => none
        | some (Except.error e) => some (Except.error e)
        | some (Except.ok (resolved2, path2)) =>
          some (Except.ok (resolved2, setDelete path2 role.id))

/-- The `for (const role of userRoles)` loop of `resolveHierarchy`,
threading the shared `resolvedRoles` / `processedRoleIds` sets. -/
def resolveLoop (allRoles : List Role) (tenantId : Option String)
    (fuel : Nat) :
    List Role → List Role → List String →
    Option (Except RbacError (List Role × List String))
  | [], resolved, path => some (Except.ok (resolved, path))
  | r :: rest, resolved, path =>
    match resolveRec allRoles tenantId fuel r resolved path with
    | none => none
    | some (Except.error e) => some (Except.error e)
    | some (Except.ok (resolved1, path1)) =>
      resolveLoop allRoles tenantId fuel rest resolved1 path1

/-- The memo table of the hierarchy manager
(`private hierarchyCache = new Map<string, Role[]>()`). -/
structure HierarchyState where
  hierarchyCache : List (String × List Role)
deriving Repr, DecidableEq

/-- `RoleHierarchyManager.generateCacheKey`: the sorted, comma-joined
role ids, then `tenant:<id>` or `no-tenant` (JS truthiness on the
tenant).  JS `Array.sort()` sorts strings lexicographically. -/
def generateHierarchyCacheKey (roles : List Role)
    (tenantId : Option String) : String :=
  let roleIds := String.intercalate "," (sortStrings (roles.map (·.id)))
  let tenant :=
    match tenantId with
    | some t => if t ≠ "" then "tenant:" ++ t else "no-tenant"
    | none => "no-tenant"
  roleIds ++ ":" ++ tenant

/-- `Map.get` on the memo table (first match — keys are unique since
`Map.set` with a fresh key appends). -/
def hierarchyLookup (st : HierarchyState) (key : String) :
    Option (List Role) :=
  (st.hierarchyCache.find? (fun kv => kv.1 = key)).map (·.2)

/-- The wrapped error thrown by `resolveHierarchy`'s catch block: any
failure is re-thrown as a `HIERARCHY_ERROR`. -/
def hierarchyFailure : RbacError :=
  { message := "Role hierarchy resolution failed",
    code := RbacErrorCode.HIERARCHY_ERROR }

/-- Fuel supplied by the embedding for one resolution pass; proved
sufficient (`resolveRec` can never return `none` with it). -/
def hierarchyFuel (allRoles : List Role) : Nat :=
  allRoles.length + 2

/-- `RoleHierarchyManager.resolveHierarchy(userRoles, allRoles,
tenantId?)`: serve the memoized result when the key (computed from the
user-role ids and tenant only) is cached; otherwise run the resolution
loop from empty sets, wrap any thrown error into `hierarchyFailure`, and
on success memoize and return the accumulated set as a list
(`Array.from` of an insertion-ordered `Set`). -/
def resolveHierarchy (st : HierarchyState) (userRoles : List Role)
    (allRoles : List Role) (tenantId : Option String) :
    Option (Except RbacError (List Role)) × HierarchyState :=
  let key := generateHierarchyCacheKey userRoles tenantId
  match hierarchyLookup st key with
  | some cached => (some (Except.ok cached), st)
  | none =>
    match resolveLoop allRoles tenantId (hierarchyFuel allRoles)
        userRoles [] [] with
    | none => (none, st)
    | some (Except.error _) => (some (Except.error hierarchyFailure), st)
    | some (Except.ok (resolved, _)) =>
      (some (Except.ok resolved),
       { st with hierarchyCache := st.hierarchyCache ++ [(key, resolved)] })

/-- `RoleHierarchyManager.clearCache(tenantId?)`: a full clear when no
(truthy) tenant is given, else only the entries whose key contains the
substring `tenant:<id>`. -/
def clearHierarchyCache (st : HierarchyState) (tenantId : Option String) :
    HierarchyState :=
  match tenantId with
  | some t =>
    if t ≠ "" then
      let keep := fun (kv : String × List Role) =>
        !(strContains kv.1 ("tenant:" ++ t))
      { st with hierarchyCache := st.hierarchyCache.filter keep }
    else { st with hierarchyCache := [] }
  | none => { st with hierarchyCache := [] }

/-- The error thrown by `validateRoleHierarchyRecursively` on a circular
dependency (the message joins the visited path; the embedding keeps the
conflicting id, which is what the code appends last). -/
def validateCircularError (visited : List String) (pid : String) :
    RbacError :=
  { message := "Circular dependency detected in role hierarchy: " ++
      String.intercalate " -> " visited ++ " -> " ++ pid,
    code := RbacErrorCode.HIERARCHY_ERROR }

/-- The error thrown by `validateRoleHierarchyRecursively` on a dangling
parent reference. -/
def parentNotFoundError (pid : String) : RbacError :=
  { message := "Parent role not found: " ++ pid,
    code := RbacErrorCode.INVALID_ROLE }

/-- The `roleMap` of `validateHierarchy` is a JS `Map` built from
`roles.map(r => [r.id, r])`: for duplicate ids the *last* role wins
(later `Map.set` calls overwrite), unlike `Array.find` which takes the
first. -/
def roleMapGet (roles : List Role) (pid : String) : Option Role :=
  (roles.reverse).find? (fun r => r.id = pid)

/-- `RoleHierarchyManager.validateRoleHierarchyRecursively`, with fuel.
Mirrors the source: a role without a (truthy) parent id validates; a
parent id already visited is a cycle (`HIERARCHY_ERROR`); a parent id
absent from the role map is a dangling reference (`INVALID_ROLE`);
otherwise add the parent id to the visited path and recurse. -/
def validateRec (roles : List Role) :
    Nat → Role → List String → Option (Except RbacError Unit)
  | 0, _, _ => none
  | fuel + 1, role, visited =>
    match role.parentRoleId with
    | none => some (Except.ok ())
    | some pid =>
      if pid = "" then some (Except.ok ())
      else if pid ∈ visited then
        some (Except.error (validateCircularError visited pid))
      else
        match roleMapGet roles pid with
        | none => some (Except.error (parentNotFoundError pid))
        | some parent =>
          validateRec roles fuel parent (setAdd visited pid)

/-- The `for (const role of roles)` loop of `validateHierarchy`: validate
every role that has a (truthy) parent id, starting from a visited set
containing just that role's id; the first thrown error aborts the whole
validation. -/
def validateLoop (roles : List Role) (fuel : Nat) :
    List Role → Option (Except RbacError Unit)
  | [] => some (Except.ok ())
  | r :: rest =>
    match r.parentRoleId with
    | none => validateLoop roles fuel rest
    | some pid =>
      if pid = "" then validateLoop roles fuel rest
      else
        match validateRec roles fuel r [r.id] with
        | none => none
        | some (Except.error e) => some (Except.error e)
        | some (Except.ok _) => validateLoop roles fuel rest

/-- `RoleHierarchyManager.validateHierarchy(roles)`. -/
def validateHierarchy (roles : List Role) :
    Option (Except RbacError Unit) :=
  validateLoop roles (hierarchyFuel roles) roles

/-- Proof measure: how many of the given ids are not yet covered by a
visited/path set.  Used to show the embedding's fuel is sufficient. -/
def uncoveredIds (ids : List String) (covered : List String) : Nat :=
  (ids.filter (fun s => s ∉ covered)).length

/-! ## Role service (`services/role.service.ts`, enhanced v2 service) -/

/-- `RbacConfig` fields read by the embedded code
(`enableDebugLogging`, `defaultTenantId`, `cacheTimeout` feed logging and
cache construction only and are omitted or kept as data). -/
structure RbacConfig where
  enableRoleHierarchy : Bool
  enableCaching : Bool
  strictMode : Bool
deriving Repr, DecidableEq

/-- `CACHE_KEYS.ROLE_CHECK` from `config/rbac.config.ts` (the config
file is staged inside the project README concatenation). -/
def CACHE_KEYS_ROLE_CHECK : String := "rbac:role:"

/-- `CACHE_KEYS.PERMISSION_CHECK` from `config/rbac.config.ts`. -/
def CACHE_KEYS_PERMISSION_CHECK : String := "rbac:permission:"

/-- The characters that are special in a JavaScript regular expression.
The `CACHE_KEYS` prefixes contain none of them, so the interpolated
pattern of `clearUserCache` is a literal one exactly when the user id
is free of them. -/
def regexSpecialChars : List Char := "\\^$.|?*+()[]\x7b\x7d".data

/-- The string contains no regex metacharacters, so it is interpolated
into `new RegExp(...)` verbatim. -/
def regexLiteral (s : String) : Bool :=
  s.data.all (fun c => c ∉ regexSpecialChars)

/-- The options object passed to `hasRole` / `hasPermission`
(`Record<string, any>` in the source; these are the four keys the service
reads). -/
structure CheckOptions where
  includeInherited : Option Bool := none
  tenantId : Option String := none
  resource : Option String := none
  action : Option String := none
deriving Repr, DecidableEq

/-- `JSON.stringify(options)` for the options shapes above, with absent
(`undefined`) fields omitted; an absent options object serializes to `''`
(`options ? JSON.stringify(options) : ''`).  No claim depends on the
exact rendering, only on its determinism. -/
def serializeOptions : Option CheckOptions → String
  | none => ""
  | some o =>
    let fields :=
      (match o.includeInherited with
       | some b => ["\x22includeInherited\x22:" ++ (if b then "true" else "false")]
       | none => []) ++
      (match o.tenantId with
       | some t => ["\x22tenantId\x22:\x22" ++ t ++ "\x22"]
       | none => []) ++
      (match o.resource with
       | some r => ["\x22resource\x22:\x22" ++ r ++ "\x22"]
       | none => []) ++
      (match o.action with
       | some a => ["\x22action\x22:\x22" ++ a ++ "\x22"]
       | none => [])
    "\x7b" ++ String.intercalate "," fields ++ "\x7d"

/-- The two check types of `performPermissionCheck`. -/
inductive CheckType where
  | role
  | permission
deriving Repr, DecidableEq

/-- The string the source interpolates for a check type
(`check_${type}` and the prefix selection). -/
def CheckType.str : CheckType → String
  | .role => "role"
  | .permission => "permission"

/-- `RoleService.generateCacheKey`:
`` `${prefix}${userId}:${identifier}:${optionsStr}` ``. -/
def generateCacheKey (type : CheckType) (identifier : String)
    (userId : String) (options : Option CheckOptions) : String :=
  let pfx :=
    match type with
    | .role => CACHE_KEYS_ROLE_CHECK
    | .permission => CACHE_KEYS_PERMISSION_CHECK
  pfx ++ userId ++ ":" ++ identifier ++ ":" ++ serializeOptions options

/-- `RbacEventType` from `rbac.types.ts`. -/
inductive RbacEventType where
  | ROLE_ADDED
  | ROLE_REMOVED
  | PERMISSION_ADDED
  | PERMISSION_REMOVED
  | CONTEXT_UPDATED
  | TENANT_CHANGED
  | CACHE_CLEARED
  | ACCESS_DENIED
  | ACCESS_GRANTED
deriving Repr, DecidableEq

/-- `AuditLogEntry` (the random `id`, wall-clock `timestamp` and copied
`sessionData` context are not modelled; the entry's decision content
is). -/
structure AuditLogEntry where
  userId : String
  action : String
  resource : String
  result : PermissionCheckResult
deriving Repr, DecidableEq

/-- The mutable state of a `RoleService` instance: the current context
signal, the system-role universe signal, both LRU caches, the audit log,
the stream of emitted event types (modelling the `eventSubject`
notifications, in order), and the hierarchy manager's memo. -/
structure RoleServiceState where
  config : RbacConfig
  userContext : Option UserContext := none
  systemRoles : List Role := []
  contextCache : LruCache PermissionCheckResult
  permissionCache : LruCache Bool
  auditLog : List AuditLogEntry := []
  events : List RbacEventType := []
  hierarchySt : HierarchyState := { hierarchyCache := [] }
deriving Repr, DecidableEq

/-- The key predicate of `RoleService.clearUserCache`: the source builds
`new RegExp(`^${ROLE_CHECK}${userId}:|^${PERMISSION_CHECK}${userId}:`)`.
The `CACHE_KEYS` prefixes consist of literal characters only, so for a
user id satisfying `regexLiteral` (no regex metacharacters) the compiled
pattern is an anchored alternation of two literal prefixes, i.e. exactly
this prefix test; the theorem about `setUserContext` carries that
`regexLiteral` hypothesis, since for a metacharacter-bearing user id the
source's regex matches a different key set than any literal reading. -/
def userCacheKeyPattern (userId : String) (key : String) : Bool :=
  strHasPrefix (CACHE_KEYS_ROLE_CHECK ++ userId ++ ":") key ||
  strHasPrefix (CACHE_KEYS_PERMISSION_CHECK ++ userId ++ ":") key

/-- `RoleService.clearUserCache(userId)`: invalidate the matching keys in
both caches. -/
def clearUserCacheS (st : RoleServiceState) (userId : String) :
    RoleServiceState :=
  { st with
    permissionCache :=
      st.permissionCache.invalidatePattern (userCacheKeyPattern userId),
    contextCache :=
      st.contextCache.invalidatePattern (userCacheKeyPattern userId) }

/-- `RoleService.setUserContext(context)`: store the context, purge the
caches for `context.userId` (the new context's id — the same purge the
`setupEffects` signal effect repeats, which is idempotent), and emit a
`CONTEXT_UPDATED` event.  The legacy `roles$`/`permissions$`/`tenant$`
subjects are display plumbing and are not modelled.  (The purge is the
literal reading of the interpolated regex; it coincides with the source
for `regexLiteral` user ids, which the theorem assumes.) -/
def setUserContextS (st : RoleServiceState) (ctx : UserContext) :
    RoleServiceState :=
  let st1 := { st with userContext := some ctx }
  let st2 := clearUserCacheS st1 ctx.userId
  { st2 with events := st2.events ++ [RbacEventType.CONTEXT_UPDATED] }

/-- The permission pair-match condition
`resource && action && p.resource === resource && p.action === action`
(JS truthiness on the two option strings). -/
def permPairMatch (resOpt actOpt : Option String) (p : Permission) : Bool :=
  jsTruthy resOpt && jsTruthy actOpt &&
  decide (some p.resource = resOpt) && decide (some p.action = actOpt)

/-- `RoleService.checkPermissionAccess`: grant iff some active permission
matches by id, or by `(resource, action)` pair when both options are
(truthy) supplied; `grantingPermissions` collects matches by id or pair
(without re-checking `active`, as in the source). -/
def checkPermissionAccess (permissionId : String) (ctx : UserContext)
    (options : Option CheckOptions) : PermissionCheckResult :=
  let resOpt := options.bind (·.resource)
  let actOpt := options.bind (·.action)
  let hasDirectPermission :=
    ctx.permissions.any (fun p =>
      p.active &&
      (decide (p.id = permissionId) || permPairMatch resOpt actOpt p))
  if hasDirectPermission then
    let grantingPermissions :=
      (ctx.permissions.filter (fun p =>
        decide (p.id = permissionId) || permPairMatch resOpt actOpt p)).map
        (·.id)
    { granted := true, reason := some "Direct permission assignment",
      grantingPermissions := some grantingPermissions }
  else
    { granted := false,
      reason := some ("Permission \x27" ++ permissionId ++ "\x27 not found") }

/-- `RoleService.checkRoleAccess`: tenant-filter the context roles,
grant on a direct active id match, else — when inheritance is requested
(per-call override or config default) — resolve the hierarchy over the
tenant-filtered roles against the system-role universe and grant on an
active id match in the resolved set.  A thrown hierarchy error
propagates. -/
def checkRoleAccess (roleId : String) (ctx : UserContext)
    (options : Option CheckOptions) (cfg : RbacConfig)
    (systemRoles : List Role) (hst : HierarchyState) :
    Option (Except RbacError PermissionCheckResult) × HierarchyState :=
  let includeInherited :=
    (options.bind (·.includeInherited)).getD cfg.enableRoleHierarchy
  let tenantId :=
    match options.bind (·.tenantId) with
    | some t => some t
    | none => ctx.tenantId
  let rolesToCheck :=
    if jsTruthy tenantId then
      ctx.roles.filter (fun r =>
        !(jsTruthy r.tenantId) || decide (r.tenantId = tenantId))
    else ctx.roles
  let hasDirectRole :=
    rolesToCheck.any (fun r => decide (r.id = roleId) && r.active)
  if hasDirectRole then
    (some (Except.ok
      { granted := true, reason := some "Direct role assignment",
        grantingRoles := some [roleId] }), hst)
  else if includeInherited then
    match resolveHierarchy hst rolesToCheck systemRoles tenantId with
    | (none, hst1) => (none, hst1)
    | (some (Except.error e), hst1) => (some (Except.error e), hst1)
    | (some (Except.ok effectiveRoles), hst1) =>
      let hasInheritedRole :=
        effectiveRoles.any (fun r => decide (r.id = roleId) && r.active)
      if hasInheritedRole then
        let grantingRoles :=
          (effectiveRoles.filter (fun r => r.id = roleId)).map (·.id)
        (some (Except.ok
          { granted := true, reason := some "Inherited role assignment",
            grantingRoles := some grantingRoles }), hst1)
      else
        (some (Except.ok
          { granted := false,
            reason := some ("Role \x27" ++ roleId ++
              "\x27 not found in user\x27s roles") }), hst1)
  else
    (some (Except.ok
      { granted := false,
        reason := some ("Role \x27" ++ roleId ++
          "\x27 not found in user\x27s roles") }), hst)

/-- `RoleService.executePermissionCheck`: dispatch on the check type. -/
def executePermissionCheck (type : CheckType) (identifier : String)
    (ctx : UserContext) (options : Option CheckOptions) (cfg : RbacConfig)
    (systemRoles : List Role) (hst : HierarchyState) :
    Option (Except RbacError PermissionCheckResult) × HierarchyState :=
  match type with
  | .role => checkRoleAccess identifier ctx options cfg systemRoles hst
  | .permission =>
    (some (Except.ok (checkPermissionAccess identifier ctx options)), hst)

/-- The miss path of `performPermissionCheck` (after the cache lookup):
run the check; on success cache the result (when caching is enabled),
append the audit entry, and emit `ACCESS_GRANTED`/`ACCESS_DENIED`.  A
thrown error propagates to the caller with no audit entry, cache write or
event: the source's `catchError` operator is attached to the observable
pipeline, but every internal failure is thrown synchronously while
`executePermissionCheck` is still being invoked, before the pipeline
exists, so that recovery branch is unreachable. -/
def performCheckMiss (now : Nat) (st : RoleServiceState)
    (type : CheckType) (identifier : String) (ctx : UserContext)
    (options : Option CheckOptions) (cacheKey : String) :
    Option (Except RbacError PermissionCheckResult) × RoleServiceState :=
  match executePermissionCheck type identifier ctx options st.config
      st.systemRoles st.hierarchySt with
  | (none, hst1) => (none, { st with hierarchySt := hst1 })
  | (some (Except.error e), hst1) =>
    (some (Except.error e), { st with hierarchySt := hst1 })
  | (some (Except.ok result), hst1) =>
    let cc1 :=
      if st.config.enableCaching then
        st.contextCache.set cacheKey result none now
      else st.contextCache
    let entry : AuditLogEntry :=
      { userId := ctx.userId, action := "check_" ++ type.str,
        resource := identifier, result := result }
    let ev :=
      if result.granted then RbacEventType.ACCESS_GRANTED
      else RbacEventType.ACCESS_DENIED
    (some (Except.ok result),
     { st with
         hierarchySt := hst1, contextCache := cc1,
         auditLog := st.auditLog ++ [entry],
         events := st.events ++ [ev] })

/-- `RoleService.performPermissionCheck` at time `now`.  No context:
denied, audited under `anonymous`, not cached, no event.  Cache hit (when
caching is enabled): return the cached result verbatim — the lookup's
lazy-expiry deletion and LRU repositioning are the only state changes; no
audit entry and no event.  Otherwise run the miss path. -/
def performPermissionCheck (now : Nat) (st : RoleServiceState)
    (type : CheckType) (identifier : String)
    (options : Option CheckOptions) :
    Option (Except RbacError PermissionCheckResult) × RoleServiceState :=
  match st.userContext with
  | none =>
    let result : PermissionCheckResult :=
      { granted := false, reason := some "No user context available" }
    let entry : AuditLogEntry :=
      { userId := "anonymous", action := "check_" ++ type.str,
        resource := identifier, result := result }
    (some (Except.ok result),
     { st with auditLog := st.auditLog ++ [entry] })
  | some ctx =>
    let cacheKey := generateCacheKey type identifier ctx.userId options
    if st.config.enableCaching then
      match st.contextCache.get cacheKey now with
      | (some cached, cc1) =>
        (some (Except.ok cached), { st with contextCache := cc1 })
      | (none, cc1) =>
        performCheckMiss now { st with contextCache := cc1 } type
          identifier ctx options cacheKey
    else
      performCheckMiss now st type identifier ctx options cacheKey

/-- `RoleService.hasRole(roleId, options)`: the `granted` flag of the
detailed check. -/
def hasRoleS (now : Nat) (st : RoleServiceState) (roleId : String)
    (options : Option CheckOptions) :
    Option (Except RbacError Bool) × RoleServiceState :=
  match performPermissionCheck now st .role roleId options with
  | (res, st1) => (res.map (·.map (·.granted)), st1)

/-! ## Concrete instances used by the claim theorems -/

/-- The `manager` role of the spec's inheritance scenario. -/
def roleManagerEx : Role :=
  { id := "manager", name := "Manager", parentRoleId := some "admin",
    active := true }

/-- The `admin` role of the spec's inheritance scenario (no parent). -/
def roleAdminEx : Role :=
  { id := "admin", name := "Administrator", active := true }

/-- Context of the inheritance scenario: the user holds only `manager`. -/
def ctxManagerEx : UserContext :=
  { userId := "user1", roles := [roleManagerEx], permissions := [] }

/-- Config with role hierarchy enabled (caching off, non-strict). -/
def cfgHierOn : RbacConfig :=
  { enableRoleHierarchy := true, enableCaching := false,
    strictMode := false }

/-- Config with role hierarchy disabled (caching off, non-strict). -/
def cfgHierOff : RbacConfig :=
  { enableRoleHierarchy := false, enableCaching := false,
    strictMode := false }

/-- Cycle witness: `A`'s parent is `B`. -/
def roleCycleA : Role :=
  { id := "A", name := "A", parentRoleId := some "B", active := true }

/-- Cycle witness: `B`'s parent is `A`. -/
def roleCycleB : Role :=
  { id := "B", name := "B", parentRoleId := some "A", active := true }

/-- A role with a dangling parent reference. -/
def roleDanglingC : Role :=
  { id := "C", name := "C", parentRoleId := some "missing",
    active := true }

/-- The permission of the spec's matching scenario. -/
def permDocEditEx : Permission :=
  { id := "p1", name := "Edit document", resource := "doc",
    action := "edit", active := true }

/-- The same permission, inactive. -/
def permDocEditInactiveEx : Permission :=
  { id := "p1", name := "Edit document", resource := "doc",
    action := "edit", active := false }

/-- Context holding the active scenario permission. -/
def ctxPermEx : UserContext :=
  { userId := "user1", roles := [], permissions := [permDocEditEx] }

/-- Context holding only the inactive permission. -/
def ctxPermInactiveEx : UserContext :=
  { userId := "user1", roles := [],
    permissions := [permDocEditInactiveEx] }

/-- Check options `{resource:'doc', action:'edit'}`. -/
def optsDocEdit : CheckOptions :=
  { resource := some "doc", action := some "edit" }

/-- Config with caching enabled (hierarchy off, non-strict). -/
def cfgCachingEx : RbacConfig :=
  { enableRoleHierarchy := false, enableCaching := true,
    strictMode := false }

/-- A decision previously cached for `user1`. -/
def cachedResultEx : PermissionCheckResult :=
  { granted := true, reason := some "Direct role assignment",
    grantingRoles := some ["admin"] }

/-- The key the service generates for a role check of `admin` by `user1`
with no options. -/
def hitKeyEx : String := generateCacheKey .role "admin" "user1" none

/-- A context for `user1` with no roles or permissions. -/
def ctxU1Ex : UserContext :=
  { userId := "user1", roles := [], permissions := [] }

/-- A context for a different user, `user2`. -/
def ctxU2Ex : UserContext :=
  { userId := "user2", roles := [], permissions := [] }

/-- An empty boolean cache with the default construction parameters. -/
def emptyPermCacheEx : LruCache Bool := LruCache.mk' Bool 1000 300000

/-- A context cache holding one unexpired decision for `hitKeyEx`
(stored at time 50 with the default TTL). -/
def hitCacheEx : LruCache PermissionCheckResult :=
  { maxSize := 1000, defaultTtl := 300000,
    entries := [(hitKeyEx,
      { value := cachedResultEx, timestamp := 50, ttl := 300000,
        key := hitKeyEx })] }

/-- Service state with caching enabled and `hitCacheEx` as the decision
cache: the next role check of `admin` by `user1` is a cache hit. -/
def stHitEx : RoleServiceState :=
  { config := cfgCachingEx, userContext := some ctxU1Ex,
    contextCache := hitCacheEx, permissionCache := emptyPermCacheEx }

/-- Service state holding one decision entry scoped to `user1`, about to
receive a context swap to `user2`. -/
def stOldUserEx : RoleServiceState :=
  { config := cfgCachingEx, userContext := some ctxU1Ex,
    contextCache := hitCacheEx, permissionCache := emptyPermCacheEx }

/-! ## Claim theorems -/

/-- **C7, counterexample.**  The claim says an entry stored with an
explicit TTL of zero expires immediately on next access.  On the code,
`set('k', 7, 0)` at time 100 followed by `get('k')` at time 100 returns
the stored value (`some 7`), not a miss: `ttl || this.defaultTtl`
replaces the zero TTL by the default. -/
theorem C7_ttl_zero_counterexample :
    (((LruCache.mk' Nat 10 300000).set "k" 7 (some 0) 100).get "k" 100).1
      = some 7 := by
  decide

/-- **C7, amended.**  An explicit TTL of zero is treated exactly like an
absent TTL argument: `set(key, value, 0)` produces the same cache state
as `set(key, value)` with no TTL, so the entry is stored with
`defaultTtl` and does not expire immediately on next access. -/
theorem C7_ttl_zero_falls_back_to_default {T : Type} (c : LruCache T)
    (k : String) (v : T) (now : Nat) :
    c.set k v (some 0) now = c.set k v none now := by
  rfl

/-- **C8, counterexample.**  The claim says `maxSize <= 0` is rejected at
construction with a ConfigurationError and an always-evicting cache is
never created.  On the code the constructor stores `maxSize = 0`
unvalidated, and the resulting cache immediately evicts the entry it just
inserted: after `set('a', 1)` the cache is empty. -/
theorem C8_no_constructor_validation_counterexample :
    (LruCache.mk' Nat 0 300000).maxSize = 0 ∧
    ((LruCache.mk' Nat 0 300000).set "a" 1 none 5).entries = [] := by
  decide

/-- **C8, amended.**  Construction performs no validation: any
`maxSize`, including non-positive values, is accepted, and the resulting
cache is always-evicting — a `set` of a non-empty key onto an empty cache
with `maxSize ≤ 0` immediately evicts the entry just inserted, leaving
the cache empty. -/
theorem C8_nonpositive_maxSize_always_evicts {T : Type} (m : Int)
    (d : Nat) (c : LruCache T) (k : String) (v : T) (ttl : Option Nat)
    (now : Nat) (hm : c.maxSize ≤ 0) (he : c.entries = [])
    (hk : k ≠ "") :
    (LruCache.mk' T m d).entries = [] ∧ (LruCache.mk' T m d).maxSize = m ∧
    (c.set k v ttl now).entries = [] := by
  refine ⟨rfl, rfl, ?_⟩
  obtain ⟨ms, dt, es⟩ := c
  simp only at he hm
  subst he
  simp only [LruCache.set, LruCache.mapGet, List.find?_nil,
    Option.map_none', Option.isSome_none, Bool.false_eq_true, if_false,
    List.nil_append, List.length_singleton]
  rw [if_pos (by exact_mod_cast by omega : ((1 : Nat) : Int) > ms)]
  rw [if_pos hk]
  simp [LruCache.mapDelete]
/-- **C8, witness.** -/
theorem C8_nonpositive_maxSize_always_evicts_witness :
    (LruCache.mk' Nat 0 300000).entries = [] ∧
    (LruCache.mk' Nat 0 300000).maxSize = 0 ∧
    ((LruCache.mk' Nat 0 300000).set "a" 1 none 5).entries = [] :=
  C8_nonpositive_maxSize_always_evicts 0 300000 (LruCache.mk' Nat 0 300000)
    "a" 1 none 5 (by decide) (by decide) (by decide)

/-- **C2.**  Inheritance scenario: the context holds
`{id:'manager', parentRoleId:'admin', active:true}` and the system role
universe holds `{id:'admin', active:true}` with no parent.  A role check
of `admin` with inheritance disabled is denied; with inheritance enabled
it is granted with reason "Inherited role assignment" and
`grantingRoles = ['admin']` (so containing `'admin'`), the inherited
match being computed by resolving the hierarchy of the tenant-filtered
direct roles against the system universe. -/
theorem C2_inherited_role_scenario :
    (checkRoleAccess "admin" ctxManagerEx none cfgHierOff [roleAdminEx]
        { hierarchyCache := [] }).1 =
      some (Except.ok
        { granted := false,
          reason := some "Role \x27admin\x27 not found in user\x27s roles" }) ∧
    (checkRoleAccess "admin" ctxManagerEx none cfgHierOn [roleAdminEx]
        { hierarchyCache := [] }).1 =
      some (Except.ok
        { granted := true, reason := some "Inherited role assignment",
          grantingRoles := some ["admin"] }) := by
  exact ⟨rfl, rfl⟩

/-- **C9.**  A permission check is granted iff some active permission in
the context matches by exact id, or by exact `(resource, action)` pair
when both options are supplied (a supplied option being a present,
non-empty string, per the source's `resource && action` truthiness) —
alternative criteria, not an AND.  Concretely, with
`{id:'p1', resource:'doc', action:'edit', active:true}` in the context:
`hasPermission('p1')` is granted, `hasPermission('other',
{resource:'doc', action:'edit'})` is granted despite the id mismatch,
`hasPermission('other')` with no options is denied, and an inactive
permission satisfies neither criterion. -/
theorem C9_permission_match_criteria :
    (∀ (ctx : UserContext) (pid : String) (o : Option CheckOptions),
      ((checkPermissionAccess pid ctx o).granted = true ↔
        ∃ p, p ∈ ctx.permissions ∧ p.active = true ∧
          (p.id = pid ∨
            (jsTruthy (o.bind (·.resource)) = true ∧
             jsTruthy (o.bind (·.action)) = true ∧
             some p.resource = o.bind (·.resource) ∧
             some p.action = o.bind (·.action))))) ∧
    (checkPermissionAccess "p1" ctxPermEx none).granted = true ∧
    (checkPermissionAccess "other" ctxPermEx (some optsDocEdit)).granted
      = true ∧
    (checkPermissionAccess "other" ctxPermEx none).granted = false ∧
    (checkPermissionAccess "p1" ctxPermInactiveEx
      (some optsDocEdit)).granted = false := by
  refine ⟨?_, by decide, by decide, by decide, by decide⟩
  intro ctx pid o
  simp only [checkPermissionAccess, permPairMatch]
  split_ifs with h
  · simp only [List.any_eq_true, Bool.and_eq_true, Bool.or_eq_true,
      decide_eq_true_eq] at h
    simp only [true_iff]
    obtain ⟨p, hp, hact, hmatch⟩ := h
    exact ⟨p, hp, hact, by tauto⟩
  · simp only [List.any_eq_true, Bool.and_eq_true, Bool.or_eq_true,
      decide_eq_true_eq] at h
    simp only [false_iff]
    intro ⟨p, hp, hact, hmatch⟩
    exact h ⟨p, hp, hact, by tauto⟩

/-- **C1, counterexample.**  The claim says `setUserContext(c2)` purges
every cache entry scoped to the previous userId as well.  On the code,
with a decision cached under `user1` (`hitKeyEx` =
`rbac:role:user1:admin:`), swapping to a context for `user2` leaves the
`user1`-scoped entry in the cache untouched: `clearUserCache` is called
with the *new* context's userId only. -/
theorem C1_previous_user_entry_survives_counterexample :
    ((setUserContextS stOldUserEx ctxU2Ex).contextCache.entries.map (·.1))
      = ["rbac:role:user1:admin:"] := by
  decide

/-- **C1, amended.**  `setUserContext(context)` purges exactly the cache
entries (in both caches) whose key is scoped to the *new* context's
userId — entries scoped to a different previous userId survive the swap
(they are purged only when a context with that userId is next set; they
are also unreachable meanwhile, since lookup keys embed the current
userId).  In particular, for two successive `setUserContext` calls with
the *same* userId, every entry cached under the first context is purged
by the second call, which is the spec's scenario.  The call also stores
the context and emits a `CONTEXT_UPDATED` event.  The `regexLiteral`
hypothesis confines the statement to user ids interpolated verbatim into
the source's `RegExp` — there the embedding's prefix test is exactly the
regex's match set; a metacharacter-bearing id would make the source's
regex match a different key set. -/
theorem C1_setUserContext_purges_new_userId (st : RoleServiceState)
    (ctx : UserContext) (hlit : regexLiteral ctx.userId = true) :
    setUserContextS st ctx =
      { st with
          userContext := some ctx,
          contextCache := st.contextCache.invalidatePattern
            (userCacheKeyPattern ctx.userId),
          permissionCache := st.permissionCache.invalidatePattern
            (userCacheKeyPattern ctx.userId),
          events := st.events ++ [RbacEventType.CONTEXT_UPDATED] } := by
  rfl

/-- **C3, counterexample.**  The claim says a check served from the cache
still appends an audit-log entry and emits an access event.  On the code,
with caching enabled and an unexpired entry for the check's key
(`stHitEx`), `performPermissionCheck` returns the cached result verbatim
but appends nothing to the audit log and emits no event (both stay
empty): the cache-hit branch returns before the audit/event pipeline. -/
theorem C3_cache_hit_is_silent_counterexample :
    (performPermissionCheck 60 stHitEx .role "admin" none).1 =
      some (Except.ok cachedResultEx) ∧
    (performPermissionCheck 60 stHitEx .role "admin" none).2.auditLog
      = [] ∧
    (performPermissionCheck 60 stHitEx .role "admin" none).2.events
      = [] := by
  exact ⟨rfl, rfl, rfl⟩

/-- **C3, amended.**  For every check served from the cache (caching
enabled, context present, unexpired entry under the check's cache key),
the engine returns the cached `PermissionCheckResult` verbatim and makes
*no* observable record of the check: the audit log and the event stream
are left unchanged, the only state change being the cache's own lazy
expiry/LRU repositioning performed by the lookup itself.  (Cache hits are
silent, contrary to the claim.) -/
theorem C3_cache_hit_returns_verbatim_no_audit_no_event (now : Nat)
    (st : RoleServiceState) (type : CheckType) (identifier : String)
    (options : Option CheckOptions) (ctx : UserContext)
    (cached : PermissionCheckResult)
    (cc1 : LruCache PermissionCheckResult)
    (hctx : st.userContext = some ctx)
    (hcfg : st.config.enableCaching = true)
    (hget : st.contextCache.get
      (generateCacheKey type identifier ctx.userId options) now =
        (some cached, cc1)) :
    performPermissionCheck now st type identifier options =
      (some (Except.ok cached), { st with contextCache := cc1 }) := by
  simp only [performPermissionCheck, hctx, hcfg, if_true, hget]

/-- **C3, witness.** -/
theorem C3_cache_hit_witness :
    stHitEx.userContext = some ctxU1Ex ∧
    stHitEx.config.enableCaching = true ∧
    performPermissionCheck 60 stHitEx .role "admin" none =
      (some (Except.ok cachedResultEx),
       { stHitEx with contextCache := hitCacheEx }) :=
  ⟨rfl, rfl,
   C3_cache_hit_returns_verbatim_no_audit_no_event 60 stHitEx .role
     "admin" none ctxU1Ex cachedResultEx hitCacheEx rfl rfl (by decide)⟩

/-- **C10.**  `resolveHierarchy` memoizes by (sorted role-id list,
tenant) only, not by the role universe: once a first (uncached) call has
computed and stored a result, any later call whose role-id list sorts
equal under the same tenant returns that exact cached result — for *any*
role universe — and leaves the memo unchanged; a full `clearCache()`
invalidates the memo entry. -/
theorem C10_hierarchy_memo_keyed_by_ids_and_tenant
    (st st1 : HierarchyState) (u1 u2 allRoles1 : List Role)
    (t : Option String) (res : List Role)
    (hmiss : hierarchyLookup st (generateHierarchyCacheKey u1 t) = none)
    (hfirst : resolveHierarchy st u1 allRoles1 t =
      (some (Except.ok res), st1))
    (hkey : generateHierarchyCacheKey u2 t =
      generateHierarchyCacheKey u1 t) :
    (∀ allRoles2 : List Role,
      resolveHierarchy st1 u2 allRoles2 t = (some (Except.ok res), st1)) ∧
    hierarchyLookup (clearHierarchyCache st1 none)
      (generateHierarchyCacheKey u2 t) = none := by
  simp only [resolveHierarchy, hmiss] at hfirst
  cases hloop : resolveLoop allRoles1 t (hierarchyFuel allRoles1) u1 [] []
    with
  | none => rw [hloop] at hfirst; simp at hfirst
  | some r =>
    cases r with
    | error e => rw [hloop] at hfirst; simp [Prod.ext_iff] at hfirst
    | ok p =>
      obtain ⟨resolved, path⟩ := p
      rw [hloop] at hfirst
      simp only [Prod.mk.injEq, Option.some.injEq, Except.ok.injEq]
        at hfirst
      obtain ⟨hres, hst1⟩ := hfirst
      have hlk : hierarchyLookup st1 (generateHierarchyCacheKey u2 t) =
          some res := by
        rw [hkey, ← hst1]
        unfold hierarchyLookup at hmiss ⊢
        simp only [List.find?_append,
          Option.map_eq_none'.mp hmiss, Option.none_or]
        simp [List.find?, hres]
      constructor
      · intro allRoles2
        simp only [resolveHierarchy, hlk]
      · simp [clearHierarchyCache, hierarchyLookup]

/-- **C10, witness.** -/
theorem C10_hierarchy_memo_witness :
    hierarchyLookup { hierarchyCache := [] }
      (generateHierarchyCacheKey [roleAdminEx] none) = none ∧
    resolveHierarchy { hierarchyCache := [("admin:no-tenant",
        [roleAdminEx])] } [roleAdminEx] [roleManagerEx] none =
      (some (Except.ok [roleAdminEx]),
       { hierarchyCache := [("admin:no-tenant", [roleAdminEx])] }) :=
  ⟨rfl,
   (C10_hierarchy_memo_keyed_by_ids_and_tenant
     { hierarchyCache := [] }
     { hierarchyCache := [("admin:no-tenant", [roleAdminEx])] }
     [roleAdminEx] [roleAdminEx] [] none [roleAdminEx] rfl (by rfl)
     rfl).1 [roleManagerEx]⟩

/-- Setting a fresh key into a cache with room left appends it at the
most-recently-used end without evicting. -/
theorem lru_set_fresh {T : Type} (c : LruCache T) (k : String) (v : T)
    (now : Nat) (hfresh : k ∉ c.keyList)
    (hroom : (c.entries.length : Int) + 1 ≤ c.maxSize) :
    c.set k v none now =
      { c with entries :=
          c.entries ++ [(k, ⟨v, now, c.defaultTtl, k⟩)] } := by
  have hfind : c.entries.find? (fun kv => kv.1 = k) = none := by
    rw [List.find?_eq_none]
    intro kv hkv
    simp only [decide_eq_true_eq]
    intro hk
    exact hfresh (by simpa [LruCache.keyList, hk] using
      List.mem_map_of_mem (·.1) hkv)
  have hlen : ¬ (((c.entries ++
      [(k, (⟨v, now, c.defaultTtl, k⟩ : CacheEntry T))]).length : Int) >
        c.maxSize) := by
    simp only [List.length_append, List.length_singleton]
    push_cast
    omega
  simp only [LruCache.set, LruCache.mapGet, hfind, Option.map_none',
    Option.isSome_none, Bool.false_eq_true, if_false, hlen, jsOrNat]

/-- Inserting a list of fresh, pairwise-distinct keys that fits within
`maxSize` appends them in order without evicting. -/
theorem lru_insertAll_fresh {T : Type} (v : T) (now : Nat) :
    ∀ (ks : List String) (c : LruCache T), ks.Nodup →
    (∀ s ∈ ks, s ∉ c.keyList) →
    ((c.entries.length : Int) + ks.length ≤ c.maxSize) →
    insertAllAt c ks v now =
      { c with entries := c.entries ++
          ks.map (fun s => (s, ⟨v, now, c.defaultTtl, s⟩)) } := by
  intro ks
  induction ks with
  | nil => intro c _ _ _; simp [insertAllAt]
  | cons k ks ih =>
    intro c hnodup hfresh hroom
    have hset : c.set k v none now =
        { c with entries :=
            c.entries ++ [(k, ⟨v, now, c.defaultTtl, k⟩)] } :=
      lru_set_fresh c k v now (hfresh k (by simp))
        (by simp only [List.length_cons] at hroom; push_cast at hroom ⊢;
            omega)
    have hfresh1 : ∀ s ∈ ks,
        s ∉ ({ c with entries :=
          c.entries ++ [(k, ⟨v, now, c.defaultTtl, k⟩)] } :
            LruCache T).keyList := by
      intro s hs
      simp only [LruCache.keyList, List.map_append, List.mem_append,
        List.map_cons, List.map_nil, List.mem_singleton]
      rintro (h1 | h2)
      · exact hfresh s (by simp [hs]) (by simpa [LruCache.keyList] using h1)
      · rcases List.nodup_cons.mp hnodup with ⟨hk, _⟩
        exact hk (h2 ▸ hs)
    have := ih ({ c with entries :=
        c.entries ++ [(k, ⟨v, now, c.defaultTtl, k⟩)] })
      (List.nodup_cons.mp hnodup).2 hfresh1
      (by simp only [List.length_cons, List.length_append,
            List.length_singleton, List.length_nil] at hroom ⊢;
          push_cast at hroom ⊢; omega)
    simp only [insertAllAt, List.foldl_cons] at this ⊢
    rw [hset, this]
    simp


/-- Setting a fresh key into a full cache whose oldest key is non-empty
and unique evicts exactly that oldest entry. -/
theorem lru_set_overflow {T : Type} (c : LruCache T) (k0 : String)
    (e0 : CacheEntry T) (rest : List (String × CacheEntry T)) (k : String)
    (v : T) (now : Nat)
    (hent : c.entries = (k0, e0) :: rest)
    (hfresh : k ∉ c.keyList)
    (hfull : (c.entries.length : Int) ≥ c.maxSize)
    (hk0ne : k0 ≠ "")
    (hk0rest : k0 ∉ rest.map Prod.fst) :
    c.set k v none now =
      { c with entries := rest ++ [(k, ⟨v, now, c.defaultTtl, k⟩)] } := by
  obtain ⟨ms, dt, es⟩ := c
  dsimp only at hent hfresh hfull ⊢
  subst hent
  simp only [LruCache.keyList] at hfresh
  have hfind : ((k0, e0) :: rest).find? (fun kv => kv.1 = k) = none := by
    rw [List.find?_eq_none]
    intro kv hkv
    simp only [decide_eq_true_eq]
    intro hk
    exact hfresh (by simpa [hk] using List.mem_map_of_mem (·.1) hkv)
  have hkk0 : k ≠ k0 := by
    intro h
    exact hfresh (by simp [h])
  have hlen : (((((k0, e0) :: rest) ++
      [(k, (⟨v, now, dt, k⟩ : CacheEntry T))]).length : Int) > ms) := by
    simp only [List.length_append, List.length_singleton,
      List.length_cons] at hfull ⊢
    push_cast at hfull ⊢
    omega
  have hdel : LruCache.mapDelete
      (((k0, e0) :: rest) ++ [(k, (⟨v, now, dt, k⟩ : CacheEntry T))]) k0 =
      rest ++ [(k, ⟨v, now, dt, k⟩)] := by
    unfold LruCache.mapDelete
    rw [List.cons_append, List.filter_cons_of_neg (by simp)]
    rw [List.filter_eq_self]
    intro kv hkv
    simp only [List.mem_append, List.mem_singleton] at hkv
    simp only [ne_eq, decide_eq_true_eq]
    rcases hkv with h1 | h2
    · intro h
      exact hk0rest (h ▸ List.mem_map_of_mem Prod.fst h1)
    · subst h2
      simpa using hkk0
  simp only [LruCache.set, LruCache.mapGet, hfind, Option.map_none',
    Option.isSome_none, Bool.false_eq_true, if_false, jsOrNat, hlen,
    if_true]
  congr 1
  show (if k0 ≠ "" then
      LruCache.mapDelete ((k0, e0) :: (rest ++
        [(k, (⟨v, now, dt, k⟩ : CacheEntry T))])) k0
    else (k0, e0) :: (rest ++
      [(k, (⟨v, now, dt, k⟩ : CacheEntry T))])) = _
  rw [if_pos hk0ne, ← List.cons_append, hdel]

/-- A `get` of a present, unexpired key returns its value and repositions
it at the most-recently-used end. -/
theorem lru_get_hit {T : Type} (c : LruCache T) (k : String)
    (e : CacheEntry T) (now : Nat)
    (hfind : LruCache.mapGet c.entries k = some e)
    (hexp : ¬ (now - e.timestamp > e.ttl)) :
    c.get k now = (some e.value,
      { c with entries := LruCache.mapDelete c.entries k ++ [(k, e)] }) := by
  simp only [LruCache.get, hfind, hexp, if_false]

/-- Keys of the entry list built over a key list. -/
theorem entriesMap_fst {T : Type} (v : T) (now ttl0 : Nat)
    (l : List String) :
    (l.map (fun s => (s, (⟨v, now, ttl0, s⟩ : CacheEntry T)))).map
      Prod.fst = l := by
  induction l with
  | nil => rfl
  | cons a t ih => simp [ih]

/-- `keyList` of a literal cache. -/
theorem keyList_mk {T : Type} (ms : Int) (dt : Nat)
    (es : List (String × CacheEntry T)) :
    ({ maxSize := ms, defaultTtl := dt, entries := es } :
      LruCache T).keyList = es.map Prod.fst := rfl

/-- **C6, counterexample.**  The claim says inserting `maxSize + 1`
distinct keys always leaves exactly `maxSize` entries, the
least-recently-used one being evicted.  With `maxSize = 1` and the
distinct keys `""` and `"a"`, both entries remain: the eviction guard
`if (firstKey)` is falsy for the empty-string key, so the
least-recently-used entry is never deleted. -/
theorem C6_empty_key_defeats_eviction_counterexample :
    (insertAllAt (LruCache.mk' Nat 1 300000) ["", "a"] 7 0).keyList
      = ["", "a"] ∧
    (insertAllAt (LruCache.mk' Nat 1 300000) ["", "a"] 7 0).entries.length
      = 2 := by
  exact ⟨rfl, rfl⟩

/-- **C6, amended.**  For `maxSize = n ≥ 1` and `n + 1` distinct
*non-empty* keys `hd :: tl ++ [k]` inserted in order at one time into a
fresh cache: exactly `n` entries remain and the entry evicted is the
least-recently-used one, `hd` (the surviving keys are `tl ++ [k]` in
access order).  Moreover, when `n ≥ 2`, touching the oldest key `hd` via
a successful `get` just before the overflow insertion repositions it:
`hd` survives and the eviction falls on the next-oldest key `tl.head`
instead (final keys `tl.tail ++ [hd, k]`).  For `n = 1` the touched key
is itself the only — hence least-recently-used — entry and is evicted,
and an empty-string key defeats eviction entirely; the amendment
excludes those two boundary cases, which the counterexample forces. -/
theorem C6_lru_eviction_and_touch {T : Type} (n : Nat) (hd : String)
    (tl : List String) (k : String) (v : T) (now ttl0 : Nat)
    (hn : 1 ≤ n) (hlen : tl.length + 1 = n)
    (hnodup : ((hd :: tl) ++ [k]).Nodup)
    (hne : ∀ s ∈ (hd :: tl) ++ [k], s ≠ "") :
    (insertAllAt (LruCache.mk' T (n : Int) ttl0) ((hd :: tl) ++ [k]) v
        now).keyList = tl ++ [k] ∧
    (insertAllAt (LruCache.mk' T (n : Int) ttl0) ((hd :: tl) ++ [k]) v
        now).entries.length = n ∧
    (2 ≤ n →
      ((((insertAllAt (LruCache.mk' T (n : Int) ttl0) (hd :: tl) v
          now).get hd now).2.set k v none now).keyList =
        tl.tail ++ [hd, k] ∧
      hd ∈ (((insertAllAt (LruCache.mk' T (n : Int) ttl0) (hd :: tl) v
          now).get hd now).2.set k v none now).keyList)) := by
  have hnd1 : (hd :: tl).Nodup := (List.nodup_append.mp hnodup).1
  have hdisj : (hd :: tl).Disjoint [k] :=
    (List.nodup_append.mp hnodup).2.2
  have hkmem : k ∉ hd :: tl := fun h => hdisj h (List.mem_singleton.mpr rfl)
  have hc1 : insertAllAt (LruCache.mk' T (n : Int) ttl0) (hd :: tl) v now
      = ⟨(n : Int), ttl0,
         (hd :: tl).map (fun s => (s, ⟨v, now, ttl0, s⟩))⟩ := by
    rw [lru_insertAll_fresh v now (hd :: tl)
      (LruCache.mk' T (n : Int) ttl0) hnd1
      (by intro s _
          simp [LruCache.keyList, LruCache.mk'])
      (by simp only [LruCache.mk', List.length_cons, List.length_nil]
          push_cast
          omega)]
    rfl
  -- Part A: plain overflow evicts the head.
  have hA : insertAllAt (LruCache.mk' T (n : Int) ttl0)
      ((hd :: tl) ++ [k]) v now =
      ⟨(n : Int), ttl0,
       tl.map (fun s => (s, ⟨v, now, ttl0, s⟩)) ++
         [(k, ⟨v, now, ttl0, k⟩)]⟩ := by
    have hsplit : insertAllAt (LruCache.mk' T (n : Int) ttl0)
        ((hd :: tl) ++ [k]) v now =
        (insertAllAt (LruCache.mk' T (n : Int) ttl0) (hd :: tl) v
          now).set k v none now := by
      simp [insertAllAt, List.foldl_append]
    rw [hsplit, hc1]
    rw [lru_set_overflow
      ⟨(n : Int), ttl0, (hd :: tl).map (fun s => (s, ⟨v, now, ttl0, s⟩))⟩
      hd ⟨v, now, ttl0, hd⟩
      (tl.map (fun s => (s, ⟨v, now, ttl0, s⟩))) k v now
      (by simp)
      (by rw [keyList_mk, entriesMap_fst]
          exact hkmem)
      (by simp only [List.length_map, List.length_cons]
          push_cast
          omega)
      (hne hd (by simp))
      (by rw [entriesMap_fst]
          exact (List.nodup_cons.mp hnd1).1)]
  refine ⟨?_, ?_, ?_⟩
  · rw [hA, keyList_mk, List.map_append, entriesMap_fst]
    rfl
  · rw [hA]
    simp only [List.length_append, List.length_map, List.length_singleton]
    omega
  · intro hn2
    cases tl with
    | nil => simp at hlen; omega
    | cons t0 t' =>
      have hget : ((insertAllAt (LruCache.mk' T (n : Int) ttl0)
          (hd :: t0 :: t') v now).get hd now) =
          (some v,
           ⟨(n : Int), ttl0,
            (t0 :: t').map (fun s => (s, ⟨v, now, ttl0, s⟩)) ++
              [(hd, ⟨v, now, ttl0, hd⟩)]⟩) := by
        rw [hc1]
        have hfind : LruCache.mapGet
            ((hd :: t0 :: t').map (fun s => (s, ⟨v, now, ttl0, s⟩))) hd =
            some ⟨v, now, ttl0, hd⟩ := by
          simp [LruCache.mapGet, List.find?]
        rw [lru_get_hit
          ⟨(n : Int), ttl0,
           (hd :: t0 :: t').map (fun s => (s, ⟨v, now, ttl0, s⟩))⟩
          hd ⟨v, now, ttl0, hd⟩ now hfind (by simp)]
        have hdel1 : LruCache.mapDelete
            ((hd :: t0 :: t').map (fun s => (s, ⟨v, now, ttl0, s⟩))) hd =
            (t0 :: t').map (fun s => (s, ⟨v, now, ttl0, s⟩)) := by
          unfold LruCache.mapDelete
          rw [List.map_cons, List.filter_cons_of_neg (by simp)]
          rw [List.filter_eq_self]
          intro kv hkv
          simp only [List.mem_map] at hkv
          obtain ⟨s, hs, hkv⟩ := hkv
          subst hkv
          have hsne : s ≠ hd := by
            intro h
            exact (List.nodup_cons.mp hnd1).1 (h ▸ hs)
          simpa using hsne
        rw [hdel1]
      rw [hget]
      dsimp only
      have hknots : k ∉ (t0 :: t') ++ [hd] := by
        intro hmem
        rcases List.mem_append.mp hmem with h | h
        · exact hkmem (List.mem_cons_of_mem hd h)
        · exact hkmem (by simp [List.mem_singleton.mp h])
      rw [lru_set_overflow
        ⟨(n : Int), ttl0,
         (t0 :: t').map
           (fun s => (s, (⟨v, now, ttl0, s⟩ : CacheEntry T))) ++
           [(hd, (⟨v, now, ttl0, hd⟩ : CacheEntry T))]⟩
        t0 (⟨v, now, ttl0, t0⟩ : CacheEntry T)
        (t'.map (fun s => (s, (⟨v, now, ttl0, s⟩ : CacheEntry T))) ++
          [(hd, (⟨v, now, ttl0, hd⟩ : CacheEntry T))]) k v now
        (by rw [List.map_cons]
            rfl)
        (by rw [keyList_mk, List.map_append, entriesMap_fst]
            simpa using hknots)
        (by simp only [List.length_append, List.length_map,
              List.length_cons, List.length_singleton, List.length_nil]
              at hlen ⊢
            push_cast at hlen ⊢
            omega)
        (hne t0 (by simp))
        (by rw [List.map_append, entriesMap_fst]
            intro hmem
            rcases List.mem_append.mp hmem with h | h
            · exact (List.nodup_cons.mp
                (List.nodup_cons.mp hnd1).2).1 h
            · have ht0hd : t0 = hd := by simpa using h
              exact (List.nodup_cons.mp hnd1).1
                (ht0hd ▸ List.mem_cons_self t0 t'))]
      constructor
      · rw [keyList_mk, List.map_append, List.map_append, entriesMap_fst]
        simp [List.append_assoc]
      · rw [keyList_mk, List.map_append, List.map_append, entriesMap_fst]
        simp

/-! ## Chain and traversal lemmas for the hierarchy resolver -/

/-- The tenant filter never cuts when no tenant is supplied. -/
theorem tenantCuts_none (rt : Option String) :
    tenantCuts none rt = false := rfl

/-- Membership in `Set.add`. -/
theorem setAdd_mem {α : Type} [DecidableEq α] (l : List α) (a x : α) :
    x ∈ setAdd l a ↔ x ∈ l ∨ x = a := by
  unfold setAdd
  split_ifs with h
  · constructor
    · exact fun hx => Or.inl hx
    · rintro (hx | rfl)
      · exact hx
      · exact h
  · simp [List.mem_append]

/-- Deleting a freshly added element restores the set. -/
theorem setAdd_delete_cancel {α : Type} [DecidableEq α] (l : List α)
    (a : α) (ha : a ∉ l) : setDelete (setAdd l a) a = l := by
  unfold setAdd setDelete
  rw [if_neg ha, List.filter_append]
  have h1 : l.filter (fun x => x ≠ a) = l := by
    rw [List.filter_eq_self]
    intro x hx
    have hxa : x ≠ a := fun h => ha (h ▸ hx)
    simpa using hxa
  rw [h1]
  simp

/-- A dead chain stays dead. -/
theorem chainFn_none_mono (allRoles : List Role) (r : Role) (i j : Nat)
    (hij : i ≤ j) (h : chainFn allRoles r i = none) :
    chainFn allRoles r j = none := by
  induction j with
  | zero => simpa [Nat.le_zero.mp hij] using h
  | succ j ih =>
    rcases Nat.lt_or_ge i (j + 1) with hlt | hge
    · have hj : chainFn allRoles r j = none := by
        rcases Nat.lt_succ_iff.mp hlt |>.lt_or_eq with h' | rfl
        · exact ih h'.le
        · exact h
      simp [chainFn, hj]
    · have : i = j + 1 := le_antisymm hij hge
      exact this ▸ h

/-- Chain elements beyond the start are members of the role universe. -/
theorem chainFn_mem (allRoles : List Role) (r : Role) (n : Nat) (x : Role)
    (h : chainFn allRoles r (n + 1) = some x) : x ∈ allRoles := by
  have e1 : chainFn allRoles r (n + 1) =
      (chainFn allRoles r n).bind (parentStep allRoles) := rfl
  rw [e1] at h
  rcases ho : chainFn allRoles r n with _ | y
  · rw [ho] at h; simp at h
  · rw [ho, Option.some_bind] at h
    rcases hy : y.parentRoleId with _ | pid
    · simp [parentStep, hy] at h
    · simp only [parentStep, hy] at h
      by_cases hpe : pid = ""
      · rw [if_pos hpe] at h; simp at h
      · rw [if_neg hpe] at h
        exact List.mem_of_find?_eq_some h

/-- Shifting the chain one step past a resolved parent. -/
theorem chainFn_shift (allRoles : List Role) (r p : Role)
    (hp : parentStep allRoles r = some p) (n : Nat) :
    chainFn allRoles r (n + 1) = chainFn allRoles p n := by
  induction n with
  | zero => simp [chainFn, hp]
  | succ n ih =>
    have e1 : chainFn allRoles r (n + 1 + 1) =
        (chainFn allRoles r (n + 1)).bind (parentStep allRoles) := rfl
    have e2 : chainFn allRoles p (n + 1) =
        (chainFn allRoles p n).bind (parentStep allRoles) := rfl
    rw [e1, e2, ih]

/-- Pigeonhole on the parent chain: a chain still alive after
`allRoles.length + 1` steps must repeat a role id among its proper
(universe-member) elements. -/
theorem chain_pigeonhole (allRoles : List Role) (r : Role)
    (hall : chainFn allRoles r (allRoles.length + 1) ≠ none) :
    ∃ i j, 1 ≤ i ∧ i < j ∧ j ≤ allRoles.length + 1 ∧
      ∃ ri rj, chainFn allRoles r i = some ri ∧
        chainFn allRoles r j = some rj ∧ ri.id = rj.id := by
  by_contra hno
  push_neg at hno
  have hsome : ∀ k, k ≤ allRoles.length + 1 →
      (chainFn allRoles r k).isSome := by
    intro k hk
    rcases h : chainFn allRoles r k with _ | v
    · exact absurd (chainFn_none_mono _ _ _ _ hk h) hall
    · simp
  have hbound : ∀ k : Fin (allRoles.length + 1),
      k.val + 1 ≤ allRoles.length + 1 := fun k => k.isLt
  let g : Fin (allRoles.length + 1) → String := fun k =>
    Role.id ((chainFn allRoles r (k.val + 1)).get
      (hsome (k.val + 1) (hbound k)))
  have hchain : ∀ k : Fin (allRoles.length + 1),
      chainFn allRoles r (k.val + 1) =
        some ((chainFn allRoles r (k.val + 1)).get
          (hsome (k.val + 1) (hbound k))) :=
    fun k => (Option.some_get _).symm
  have hinj : Function.Injective g := by
    intro k1 k2 heq
    by_contra hne
    rcases Ne.lt_or_lt (Fin.val_injective.ne hne) with hlt | hlt
    · exact hno (k1.val + 1) (k2.val + 1) (by omega) (by omega)
        (hbound k2) _ _ (hchain k1) (hchain k2) heq
    · exact hno (k2.val + 1) (k1.val + 1) (by omega) (by omega)
        (hbound k1) _ _ (hchain k2) (hchain k1) heq.symm
  have hnodup : (List.ofFn g).Nodup := List.nodup_ofFn.mpr hinj
  have hsub : (List.ofFn g) ⊆ allRoles.map Role.id := by
    intro s hs
    rw [List.mem_ofFn] at hs
    obtain ⟨k, rfl⟩ := hs
    exact List.mem_map_of_mem Role.id
      (chainFn_mem allRoles r k.val _ (hchain k))
  have hle := List.Subperm.length_le (List.subperm_of_subset hnodup hsub)
  simp only [List.length_ofFn, List.length_map] at hle
  omega

/-- A resolved parent is a member of the universe. -/
theorem parentStep_mem (allRoles : List Role) (r p : Role)
    (h : parentStep allRoles r = some p) : p ∈ allRoles := by
  rcases hy : r.parentRoleId with _ | pid
  · simp [parentStep, hy] at h
  · simp only [parentStep, hy] at h
    split_ifs at h with hpe
    · exact List.mem_of_find?_eq_some h

/-- Covering more ids cannot uncover any. -/
theorem uncoveredIds_le_of_subset (ids : List String)
    (c1 c2 : List String) (h : ∀ s, s ∈ c1 → s ∈ c2) :
    uncoveredIds ids c2 ≤ uncoveredIds ids c1 := by
  induction ids with
  | nil => simp [uncoveredIds]
  | cons a t ih =>
    simp only [uncoveredIds] at ih ⊢
    by_cases h2 : a ∈ c2
    · rw [List.filter_cons_of_neg (by simp [h2])]
      by_cases h1 : a ∈ c1
      · rw [List.filter_cons_of_neg (by simp [h1])]
        exact ih
      · rw [List.filter_cons_of_pos (by simp [h1])]
        simp only [List.length_cons]
        omega
    · have h1 : a ∉ c1 := fun hx => h2 (h a hx)
      rw [List.filter_cons_of_pos (by simp [h2]),
        List.filter_cons_of_pos (by simp [h1])]
      simp only [List.length_cons]
      omega

/-- Covering a present, uncovered id strictly shrinks the measure. -/
theorem uncoveredIds_lt (ids : List String) (c : List String) (x : String)
    (hx : x ∈ ids) (hxc : x ∉ c) :
    uncoveredIds ids (c ++ [x]) < uncoveredIds ids c := by
  induction ids with
  | nil => simp at hx
  | cons a t ih =>
    simp only [uncoveredIds] at ih ⊢
    by_cases hax : a = x
    · subst hax
      rw [List.filter_cons_of_neg (by simp),
        List.filter_cons_of_pos (by simp [hxc])]
      simp only [List.length_cons]
      have hle := uncoveredIds_le_of_subset t c (c ++ [a])
        (fun s hs => List.mem_append_left _ hs)
      simp only [uncoveredIds] at hle
      omega
    · have hxt : x ∈ t := by
        rcases List.mem_cons.mp hx with h | h
        · exact absurd h.symm hax
        · exact h
      have hiff : (a ∈ c ++ [x]) ↔ (a ∈ c) := by
        simp only [List.mem_append, List.mem_singleton]
        constructor
        · rintro (h | rfl)
          · exact h
          · exact absurd rfl hax
        · exact fun h => Or.inl h
      by_cases hac : a ∈ c
      · rw [List.filter_cons_of_neg (by simp [hiff.mpr hac]),
          List.filter_cons_of_neg (by simp [hac])]
        exact ih hxt
      · rw [List.filter_cons_of_pos
            (by simp only [decide_eq_true_eq]
                exact fun h => hac (hiff.mp h)),
          List.filter_cons_of_pos (by simp [hac])]
        simp only [List.length_cons]
        have := ih hxt
        omega

/-- The measure is bounded by the number of ids. -/
theorem uncoveredIds_le_length (ids covered : List String) :
    uncoveredIds ids covered ≤ ids.length :=
  List.length_filter_le _ _

/-- Fuel sufficiency, inner form: resolving a universe member cannot run
out of fuel while the fuel exceeds the uncovered-id measure. -/
theorem resolveRec_ne_none_of_mem (allRoles : List Role)
    (t : Option String) :
    ∀ (fuel : Nat) (r : Role) (resolved : List Role) (path : List String),
      r ∈ allRoles →
      uncoveredIds (allRoles.map Role.id) path + 1 ≤ fuel →
      resolveRec allRoles t fuel r resolved path ≠ none := by
  intro fuel
  induction fuel with
  | zero => intro r resolved path _ hf; omega
  | succ fuel ih =>
    intro r resolved path hr hf
    by_cases h1 : r.id ∈ path
    · simp [resolveRec, h1]
    · by_cases h2 : tenantCuts t r.tenantId = true
      · simp [resolveRec, h1, h2]
      · rcases hp : parentStep allRoles r with _ | p
        · simp [resolveRec, h1, h2, hp]
        · have hpmem : p ∈ allRoles := parentStep_mem allRoles r p hp
          have hsa : setAdd path r.id = path ++ [r.id] := by
            unfold setAdd
            rw [if_neg h1]
          have hstrict := uncoveredIds_lt (allRoles.map Role.id) path r.id
            (List.mem_map_of_mem Role.id hr) h1
          have hdec : uncoveredIds (allRoles.map Role.id)
              (setAdd path r.id) + 1 ≤ fuel := by
            rw [hsa]
            omega
          have hrec := ih p (setAdd resolved r) (setAdd path r.id)
            hpmem hdec
          simp only [resolveRec, h1, if_false, h2, hp]
          rcases hres : resolveRec allRoles t fuel p (setAdd resolved r)
              (setAdd path r.id) with _ | x
          · exact absurd hres hrec
          · rcases x with e | pr
            · simp
            · simp

/-- Fuel sufficiency, outer form: with two spare units of fuel over the
measure, resolving any role (member of the universe or not) cannot run
out of fuel. -/
theorem resolveRec_ne_none (allRoles : List Role) (t : Option String)
    (fuel : Nat) (r : Role) (resolved : List Role) (path : List String)
    (hf : uncoveredIds (allRoles.map Role.id) path + 2 ≤ fuel) :
    resolveRec allRoles t fuel r resolved path ≠ none := by
  rcases fuel with _ | fuel
  · omega
  · by_cases h1 : r.id ∈ path
    · simp [resolveRec, h1]
    · by_cases h2 : tenantCuts t r.tenantId = true
      · simp [resolveRec, h1, h2]
      · rcases hp : parentStep allRoles r with _ | p
        · simp [resolveRec, h1, h2, hp]
        · have hpmem : p ∈ allRoles := parentStep_mem allRoles r p hp
          have hsub := uncoveredIds_le_of_subset (allRoles.map Role.id)
            path (setAdd path r.id)
            (fun s hs => by
              rw [setAdd_mem]
              exact Or.inl hs)
          have hrec := resolveRec_ne_none_of_mem allRoles t fuel p
            (setAdd resolved r) (setAdd path r.id) hpmem (by omega)
          simp only [resolveRec, h1, if_false, h2, hp]
          rcases hres : resolveRec allRoles t fuel p (setAdd resolved r)
              (setAdd path r.id) with _ | x
          · exact absurd hres hrec
          · rcases x with e | pr
            · simp
            · simp

/-- If the parent chain from `r` reaches (within `j` steps) a role whose
id is already on the active path, or repeats an id of the chain itself,
the resolver throws — and the thrown error is the circular-dependency
`HIERARCHY_ERROR`. -/
theorem resolveRec_error_of_hit (allRoles : List Role) :
    ∀ (j fuel : Nat) (r : Role) (resolved : List Role)
      (path : List String), j < fuel →
      (∃ n, n ≤ j ∧ ∃ rn, chainFn allRoles r n = some rn ∧
        (rn.id ∈ path ∨ ∃ m, m < n ∧ ∃ rm,
          chainFn allRoles r m = some rm ∧ rm.id = rn.id)) →
      ∃ e, resolveRec allRoles none fuel r resolved path =
        some (Except.error e) ∧
        e.code = RbacErrorCode.HIERARCHY_ERROR := by
  intro j
  induction j with
  | zero =>
    intro fuel r resolved path hfuel hwit
    obtain ⟨n, hn, rn, hchain, hcond⟩ := hwit
    have hn0 : n = 0 := Nat.le_zero.mp hn
    subst hn0
    have hrn : rn = r := by
      have := hchain
      simp [chainFn] at this
      exact this.symm
    subst hrn
    rcases hcond with hmem | ⟨m, hm, _⟩
    · rcases fuel with _ | f
      · omega
      · refine ⟨circularError rn.id, ?_, rfl⟩
        simp [resolveRec, hmem]
    · omega
  | succ j ih =>
    intro fuel r resolved path hfuel hwit
    rcases fuel with _ | f
    · omega
    · by_cases h1 : r.id ∈ path
      · refine ⟨circularError r.id, ?_, rfl⟩
        simp [resolveRec, h1]
      · obtain ⟨n, hn, rn, hchain, hcond⟩ := hwit
        have hn1 : 1 ≤ n := by
          rcases Nat.eq_zero_or_pos n with rfl | h
          · have hrn : rn = r := by
              have := hchain
              simp [chainFn] at this
              exact this.symm
            subst hrn
            rcases hcond with hmem | ⟨m, hm, _⟩
            · exact absurd hmem h1
            · omega
          · exact h
        have hchain1 : (chainFn allRoles r 1).isSome := by
          rcases hc1 : chainFn allRoles r 1 with _ | p
          · rw [chainFn_none_mono allRoles r 1 n hn1 hc1] at hchain
            simp at hchain
          · simp
        have hp : ∃ p, parentStep allRoles r = some p := by
          rcases hc1 : parentStep allRoles r with _ | p
          · have : chainFn allRoles r 1 = none := by
              simp [chainFn, hc1]
            rw [this] at hchain1
            simp at hchain1
          · exact ⟨p, rfl⟩
        obtain ⟨p, hp⟩ := hp
        have hshift : ∀ m : Nat, chainFn allRoles r (m + 1) =
            chainFn allRoles p m := chainFn_shift allRoles r p hp
        have hwit' : ∃ n', n' ≤ j ∧ ∃ rn', chainFn allRoles p n' =
            some rn' ∧ (rn'.id ∈ setAdd path r.id ∨ ∃ m, m < n' ∧
              ∃ rm, chainFn allRoles p m = some rm ∧ rm.id = rn'.id) := by
          refine ⟨n - 1, by omega, rn, ?_, ?_⟩
          · rw [← hshift (n - 1)]
            have : n - 1 + 1 = n := by omega
            rw [this]
            exact hchain
          · rcases hcond with hmem | ⟨m, hm, rm, hcm, hid⟩
            · exact Or.inl ((setAdd_mem path r.id rn.id).mpr
                (Or.inl hmem))
            · rcases Nat.eq_zero_or_pos m with rfl | hm1
              · have hrm : rm = r := by
                  have := hcm
                  simp [chainFn] at this
                  exact this.symm
                subst hrm
                exact Or.inl ((setAdd_mem _ _ _).mpr (Or.inr hid.symm))
              · refine Or.inr ⟨m - 1, by omega, rm, ?_, hid⟩
                rw [← hshift (m - 1)]
                have : m - 1 + 1 = m := by omega
                rw [this]
                exact hcm
        obtain ⟨e, herr, hcode⟩ := ih f p (setAdd resolved r)
          (setAdd path r.id) (by omega) hwit'
        refine ⟨e, ?_, hcode⟩
        simp only [resolveRec, h1, if_false, tenantCuts_none,
          Bool.false_eq_true, hp, herr]

/-- Any id repeat on a chain yields one within the pigeonhole bound. -/
theorem chain_repeat_bounded (allRoles : List Role) (r : Role)
    (h : ∃ i j, i < j ∧ ∃ ri rj, chainFn allRoles r i = some ri ∧
      chainFn allRoles r j = some rj ∧ ri.id = rj.id) :
    ∃ i j, i < j ∧ j ≤ allRoles.length + 1 ∧ ∃ ri rj,
      chainFn allRoles r i = some ri ∧ chainFn allRoles r j = some rj ∧
      ri.id = rj.id := by
  obtain ⟨i, j, hij, ri, rj, hci, hcj, hid⟩ := h
  by_cases hj : j ≤ allRoles.length + 1
  · exact ⟨i, j, hij, hj, ri, rj, hci, hcj, hid⟩
  · have hall : chainFn allRoles r (allRoles.length + 1) ≠ none := by
      intro hnone
      rw [chainFn_none_mono allRoles r _ j (by omega) hnone] at hcj
      simp at hcj
    obtain ⟨i', j', _, h2, h3, ri', rj', hc1, hc2, hid'⟩ :=
      chain_pigeonhole allRoles r hall
    exact ⟨i', j', h2, h3, ri', rj', hc1, hc2, hid'⟩

/-- The user-role loop of `resolveHierarchy` throws when a cycle is
reachable from one of the roles (no tenant supplied). -/
theorem resolveLoop_error_of_cycle (allRoles : List Role) :
    ∀ (roles : List Role) (resolved : List Role) (path : List String),
      (∃ r ∈ roles, ∃ i j, i < j ∧ ∃ ri rj,
        chainFn allRoles r i = some ri ∧
        chainFn allRoles r j = some rj ∧ ri.id = rj.id) →
      ∃ e, resolveLoop allRoles none (hierarchyFuel allRoles) roles
        resolved path = some (Except.error e) := by
  intro roles
  induction roles with
  | nil =>
    intro resolved path h
    simp at h
  | cons r0 rest ih =>
    intro resolved path hcyc
    cases hres : resolveRec allRoles none (hierarchyFuel allRoles) r0
        resolved path with
    | none =>
      have hfu : uncoveredIds (allRoles.map Role.id) path + 2 ≤
          hierarchyFuel allRoles := by
        have h1 := uncoveredIds_le_length (allRoles.map Role.id) path
        simp only [List.length_map] at h1
        simp only [hierarchyFuel]
        omega
      exact absurd hres
        (resolveRec_ne_none allRoles none _ r0 resolved path hfu)
    | some x =>
      cases x with
      | error e =>
        refine ⟨e, ?_⟩
        simp [resolveLoop, hres]
      | ok pr =>
        obtain ⟨resolved1, path1⟩ := pr
        rcases hcyc with ⟨r, hrmem, i, j, hij, ri, rj, hci, hcj, hid⟩
        rcases List.mem_cons.mp hrmem with rfl | hrrest
        · obtain ⟨i', j', hij', hj', ri', rj', hci', hcj', hid'⟩ :=
            chain_repeat_bounded allRoles r
              ⟨i, j, hij, ri, rj, hci, hcj, hid⟩
          obtain ⟨e, herr, _⟩ := resolveRec_error_of_hit allRoles
            (allRoles.length + 1) (hierarchyFuel allRoles) r resolved
            path (by simp [hierarchyFuel])
            ⟨j', hj', rj', hcj', Or.inr ⟨i', hij', ri', hci', hid'⟩⟩
          rw [hres] at herr
          simp at herr
        · obtain ⟨e, herr⟩ := ih resolved1 path1
            ⟨r, hrrest, i, j, hij, ri, rj, hci, hcj, hid⟩
          refine ⟨e, ?_⟩
          simp [resolveLoop, hres, herr]

/-- What a successful `roleMapGet` guarantees. -/
theorem roleMapGet_mem (roles : List Role) (pid : String) (p : Role)
    (h : roleMapGet roles pid = some p) : p ∈ roles ∧ p.id = pid := by
  unfold roleMapGet at h
  constructor
  · exact List.mem_reverse.mp (List.mem_of_find?_eq_some h)
  · have := List.find?_some h
    simpa using this

/-- What a successful `findRoleById` guarantees. -/
theorem findRoleById_mem (roles : List Role) (pid : String) (p : Role)
    (h : findRoleById roles pid = some p) : p ∈ roles ∧ p.id = pid := by
  unfold findRoleById at h
  constructor
  · exact List.mem_of_find?_eq_some h
  · have := List.find?_some h
    simpa using this

/-- Inverting a successful `parentStep`. -/
theorem parentStep_inv (allRoles : List Role) (r p : Role)
    (h : parentStep allRoles r = some p) :
    ∃ pid, r.parentRoleId = some pid ∧ pid ≠ "" ∧
      findRoleById allRoles pid = some p := by
  rcases hy : r.parentRoleId with _ | pid
  · simp [parentStep, hy] at h
  · simp only [parentStep, hy] at h
    split_ifs at h with hpe
    · exact ⟨pid, rfl, hpe, h⟩

/-- With duplicate-free role ids, two members with the same id are the
same role. -/
theorem mem_id_unique (roles : List Role)
    (hnd : (roles.map Role.id).Nodup) :
    ∀ p ∈ roles, ∀ q ∈ roles, p.id = q.id → p = q := by
  induction roles with
  | nil => intro p hp; simp at hp
  | cons a t ih =>
    simp only [List.map_cons, List.nodup_cons] at hnd
    intro p hp q hq hpq
    rcases List.mem_cons.mp hp with rfl | hpt
    · rcases List.mem_cons.mp hq with rfl | hqt
      · rfl
      · exact absurd (hpq ▸ List.mem_map_of_mem Role.id hqt) hnd.1
    · rcases List.mem_cons.mp hq with rfl | hqt
      · exact absurd (hpq ▸ List.mem_map_of_mem Role.id hpt) hnd.1
      · exact ih hnd.2 p hpt q hqt hpq

/-- With duplicate-free role ids, the last-wins `Map` lookup of
`validateHierarchy` and the first-wins `Array.find` of the resolver
agree. -/
theorem roleMapGet_eq_find (roles : List Role) (pid : String)
    (hnd : (roles.map Role.id).Nodup) :
    roleMapGet roles pid = findRoleById roles pid := by
  cases h1 : findRoleById roles pid with
  | none =>
    cases h2 : roleMapGet roles pid with
    | none => rfl
    | some p =>
      obtain ⟨hp, hpid⟩ := roleMapGet_mem roles pid p h2
      unfold findRoleById at h1
      rw [List.find?_eq_none] at h1
      exact absurd (by simpa using hpid) (h1 p hp)
  | some p =>
    obtain ⟨hp, hpid⟩ := findRoleById_mem roles pid p h1
    cases h2 : roleMapGet roles pid with
    | none =>
      unfold roleMapGet at h2
      rw [List.find?_eq_none] at h2
      exact absurd (by simpa using hpid)
        (h2 p (List.mem_reverse.mpr hp))
    | some q =>
      obtain ⟨hq, hqid⟩ := roleMapGet_mem roles pid q h2
      rw [mem_id_unique roles hnd q hq p hp (hqid.trans hpid.symm)]

/-- When every (truthy) parent reference resolves, any error thrown by
`validateRoleHierarchyRecursively` is the circular-dependency error. -/
theorem validateRec_error_code (roles : List Role)
    (hres : ∀ r ∈ roles, ∀ pid, r.parentRoleId = some pid → pid ≠ "" →
      roleMapGet roles pid ≠ none) :
    ∀ (fuel : Nat) (r : Role) (visited : List String) (e : RbacError),
      r ∈ roles →
      validateRec roles fuel r visited = some (Except.error e) →
      e.code = RbacErrorCode.HIERARCHY_ERROR := by
  intro fuel
  induction fuel with
  | zero =>
    intro r visited e _ h
    simp [validateRec] at h
  | succ fuel ih =>
    intro r visited e hr h
    rcases hpid : r.parentRoleId with _ | pid
    · simp [validateRec, hpid] at h
    · by_cases hpe : pid = ""
      · simp [validateRec, hpid, hpe] at h
      · by_cases hv : pid ∈ visited
        · simp only [validateRec, hpid, hpe, if_false, hv, if_true,
            Option.some.injEq, if_neg, Except.error.injEq] at h
          rw [← h]
          rfl
        · rcases hg : roleMapGet roles pid with _ | parent
          · exact absurd hg (hres r hr pid hpid hpe)
          · have hpm := (roleMapGet_mem roles pid parent hg).1
            simp only [validateRec, hpid, hpe, if_false, hv, hg] at h
            exact ih parent (setAdd visited pid) e hpm h

/-- Fuel sufficiency for `validateRoleHierarchyRecursively`. -/
theorem validateRec_ne_none (roles : List Role) :
    ∀ (fuel : Nat) (r : Role) (visited : List String),
      uncoveredIds (roles.map Role.id) visited + 1 ≤ fuel →
      validateRec roles fuel r visited ≠ none := by
  intro fuel
  induction fuel with
  | zero => intro r visited hf; omega
  | succ fuel ih =>
    intro r visited hf
    rcases hpid : r.parentRoleId with _ | pid
    · simp [validateRec, hpid]
    · by_cases hpe : pid = ""
      · simp [validateRec, hpid, hpe]
      · by_cases hv : pid ∈ visited
        · simp [validateRec, hpid, hpe, hv]
        · rcases hg : roleMapGet roles pid with _ | parent
          · simp [validateRec, hpid, hpe, hv, hg]
          · obtain ⟨hpm, hpidm⟩ := roleMapGet_mem roles pid parent hg
            have hpin : pid ∈ roles.map Role.id :=
              hpidm ▸ List.mem_map_of_mem Role.id hpm
            have hsa : setAdd visited pid = visited ++ [pid] := by
              unfold setAdd
              rw [if_neg hv]
            have hstrict := uncoveredIds_lt (roles.map Role.id) visited
              pid hpin hv
            have hrec := ih parent (setAdd visited pid)
              (by rw [hsa]; omega)
            simp only [validateRec, hpid, hpe, if_false, hv, hg]
            exact hrec

/-- If the chain from `r` (through the role universe, which equals the
validator's role map on duplicate-free ids) repeats an id among its
proper elements, or reaches an id already visited, validation of `r`
throws the circular-dependency error. -/
theorem validateRec_error_of_repeat (roles : List Role)
    (hnd : (roles.map Role.id).Nodup)
    (hres : ∀ r ∈ roles, ∀ pid, r.parentRoleId = some pid → pid ≠ "" →
      roleMapGet roles pid ≠ none) :
    ∀ (j fuel : Nat) (r : Role) (visited : List String), j < fuel →
      (∃ n, 1 ≤ n ∧ n ≤ j ∧ ∃ rn, chainFn roles r n = some rn ∧
        (rn.id ∈ visited ∨ ∃ m, 1 ≤ m ∧ m < n ∧ ∃ rm,
          chainFn roles r m = some rm ∧ rm.id = rn.id)) →
      ∃ e, validateRec roles fuel r visited = some (Except.error e) ∧
        e.code = RbacErrorCode.HIERARCHY_ERROR := by
  intro j
  induction j with
  | zero =>
    intro fuel r visited _ hwit
    obtain ⟨n, hn1, hn0, _⟩ := hwit
    omega
  | succ j ih =>
    intro fuel r visited hfuel hwit
    rcases fuel with _ | f
    · omega
    · obtain ⟨n, hn1, hnj, rn, hchain, hcond⟩ := hwit
      have hchain1 : (chainFn roles r 1).isSome := by
        rcases hc1 : chainFn roles r 1 with _ | p
        · rw [chainFn_none_mono roles r 1 n hn1 hc1] at hchain
          simp at hchain
        · simp
      have hp : ∃ p, parentStep roles r = some p := by
        rcases hc1 : parentStep roles r with _ | p
        · have : chainFn roles r 1 = none := by simp [chainFn, hc1]
          rw [this] at hchain1
          simp at hchain1
        · exact ⟨p, rfl⟩
      obtain ⟨p, hp⟩ := hp
      obtain ⟨pid, hpid, hpe, hfind⟩ := parentStep_inv roles r p hp
      have hpidid : p.id = pid := (findRoleById_mem roles pid p hfind).2
      have hg : roleMapGet roles pid = some p := by
        rw [roleMapGet_eq_find roles pid hnd]
        exact hfind
      by_cases hv : pid ∈ visited
      · refine ⟨validateCircularError visited pid, ?_, rfl⟩
        simp [validateRec, hpid, hpe, hv]
      · have hshift : ∀ m : Nat, chainFn roles r (m + 1) =
            chainFn roles p m := chainFn_shift roles r p hp
        have hchainp1 : chainFn roles r 1 = some p := by
          simp [chainFn, hp]
        have hn2 : 2 ≤ n := by
          rcases Nat.lt_or_ge n 2 with h2 | h2
          · have hne : n = 1 := by omega
            subst hne
            have hrnp : rn = p := by
              rw [hchainp1] at hchain
              exact (Option.some.inj hchain).symm
            subst hrnp
            rcases hcond with hmem | ⟨m, hm1, hm2, _⟩
            · exact absurd (hpidid ▸ hmem) hv
            · omega
          · exact h2
        have hwit' : ∃ n', 1 ≤ n' ∧ n' ≤ j ∧ ∃ rn',
            chainFn roles p n' = some rn' ∧
            (rn'.id ∈ setAdd visited pid ∨ ∃ m, 1 ≤ m ∧ m < n' ∧
              ∃ rm, chainFn roles p m = some rm ∧ rm.id = rn'.id) := by
          refine ⟨n - 1, by omega, by omega, rn, ?_, ?_⟩
          · rw [← hshift (n - 1)]
            have : n - 1 + 1 = n := by omega
            rw [this]
            exact hchain
          · rcases hcond with hmem | ⟨m, hm1, hm2, rm, hcm, hid⟩
            · exact Or.inl ((setAdd_mem visited pid rn.id).mpr
                (Or.inl hmem))
            · rcases Nat.lt_or_ge m 2 with hm2' | hm2'
              · have hme : m = 1 := by omega
                subst hme
                have hrmp : rm = p := by
                  rw [hchainp1] at hcm
                  exact (Option.some.inj hcm).symm
                subst hrmp
                exact Or.inl ((setAdd_mem visited pid rn.id).mpr
                  (Or.inr (hid.symm.trans hpidid)))
              · refine Or.inr ⟨m - 1, by omega, by omega, rm, ?_, hid⟩
                rw [← hshift (m - 1)]
                have : m - 1 + 1 = m := by omega
                rw [this]
                exact hcm
        obtain ⟨e, herr, hcode⟩ := ih f p (setAdd visited pid)
          (by omega) hwit'
        refine ⟨e, ?_, hcode⟩
        simp only [validateRec, hpid, hpe, if_false, hv, hg]
        exact herr

/-- The role loop of `validateHierarchy` fails with the
circular-dependency error when some listed role has a proper chain
repeat, provided ids are duplicate-free and every parent reference
resolves. -/
theorem validateLoop_error_of_cycle (roles : List Role)
    (hnd : (roles.map Role.id).Nodup)
    (hres : ∀ r ∈ roles, ∀ pid, r.parentRoleId = some pid → pid ≠ "" →
      roleMapGet roles pid ≠ none) :
    ∀ (sub : List Role), (∀ r ∈ sub, r ∈ roles) →
      (∃ r ∈ sub, ∃ i j, 1 ≤ i ∧ i < j ∧ j ≤ roles.length + 1 ∧
        ∃ ri rj, chainFn roles r i = some ri ∧
          chainFn roles r j = some rj ∧ ri.id = rj.id) →
      ∃ e, validateLoop roles (hierarchyFuel roles) sub =
        some (Except.error e) ∧
        e.code = RbacErrorCode.HIERARCHY_ERROR := by
  intro sub
  induction sub with
  | nil =>
    intro _ h
    simp at h
  | cons r0 rest ih =>
    intro hsubmem hcyc
    have hsubrest : ∀ r ∈ rest, r ∈ roles :=
      fun r hr => hsubmem r (List.mem_cons_of_mem r0 hr)
    have hskip : ∀ (hno : parentStep roles r0 = none),
        (∃ r ∈ rest, ∃ i j, 1 ≤ i ∧ i < j ∧ j ≤ roles.length + 1 ∧
          ∃ ri rj, chainFn roles r i = some ri ∧
            chainFn roles r j = some rj ∧ ri.id = rj.id) ∨
        ¬ (∃ i j, 1 ≤ i ∧ i < j ∧ j ≤ roles.length + 1 ∧
          ∃ ri rj, chainFn roles r0 i = some ri ∧
            chainFn roles r0 j = some rj ∧ ri.id = rj.id) := by
      intro hno
      rcases hcyc with ⟨r, hrmem, hw⟩
      rcases List.mem_cons.mp hrmem with rfl | hrrest
      · right
        rintro ⟨i, j, hi1, hij, hjb, ri, rj, hci, hcj, hid⟩
        have h1 : chainFn roles r 1 = none := by simp [chainFn, hno]
        rw [chainFn_none_mono roles r 1 j (by omega) h1] at hcj
        simp at hcj
      · left
        exact ⟨r, hrrest, hw⟩
    rcases hpid : r0.parentRoleId with _ | pid
    · have hstep : parentStep roles r0 = none := by
        simp [parentStep, hpid]
      rcases hskip hstep with hrest | hnone
      · obtain ⟨e, herr, hcode⟩ := ih hsubrest hrest
        refine ⟨e, ?_, hcode⟩
        simp only [validateLoop, hpid]
        exact herr
      · rcases hcyc with ⟨r, hrmem, hw⟩
        rcases List.mem_cons.mp hrmem with rfl | hrrest
        · exact absurd hw hnone
        · obtain ⟨e, herr, hcode⟩ := ih hsubrest ⟨r, hrrest, hw⟩
          refine ⟨e, ?_, hcode⟩
          simp only [validateLoop, hpid]
          exact herr
    · by_cases hpe : pid = ""
      · have hstep : parentStep roles r0 = none := by
          simp [parentStep, hpid, hpe]
        subst hpe
        rcases hskip hstep with hrest | hnone
        · obtain ⟨e, herr, hcode⟩ := ih hsubrest hrest
          refine ⟨e, ?_, hcode⟩
          simp only [validateLoop, hpid, if_pos rfl]
          exact herr
        · rcases hcyc with ⟨r, hrmem, hw⟩
          rcases List.mem_cons.mp hrmem with rfl | hrrest
          · exact absurd hw hnone
          · obtain ⟨e, herr, hcode⟩ := ih hsubrest ⟨r, hrrest, hw⟩
            refine ⟨e, ?_, hcode⟩
            simp only [validateLoop, hpid, if_pos rfl]
            exact herr
      · cases hval : validateRec roles (hierarchyFuel roles) r0
            [r0.id] with
        | none =>
          have hfu : uncoveredIds (roles.map Role.id) [r0.id] + 1 ≤
              hierarchyFuel roles := by
            have h1 := uncoveredIds_le_length (roles.map Role.id)
              [r0.id]
            simp only [List.length_map] at h1
            simp only [hierarchyFuel]
            omega
          exact absurd hval
            (validateRec_ne_none roles _ r0 [r0.id] hfu)
        | some x =>
          cases x with
          | error e =>
            -- the first error raised: it is circular, since every
            -- parent reference resolves
            have hcode : e.code = RbacErrorCode.HIERARCHY_ERROR :=
              validateRec_error_code roles hres (hierarchyFuel roles)
                r0 [r0.id] e (hsubmem r0 (List.mem_cons_self r0 rest))
                hval
            exact ⟨e, by simp [validateLoop, hpid, hpe, hval], hcode⟩
          | ok u =>
            rcases hcyc with ⟨r, hrmem, hw⟩
            rcases List.mem_cons.mp hrmem with rfl | hrrest
            · obtain ⟨i, j, hi1, hij, hjb, ri, rj, hci, hcj, hid⟩ := hw
              obtain ⟨e, herr, _⟩ := validateRec_error_of_repeat roles
                hnd hres (roles.length + 1) (hierarchyFuel roles) r
                [r.id] (by simp [hierarchyFuel])
                ⟨j, by omega, hjb, rj, hcj,
                  Or.inr ⟨i, hi1, hij, ri, hci, hid⟩⟩
              rw [hval] at herr
              simp at herr
            · obtain ⟨e, herr, hcode⟩ := ih hsubrest ⟨r, hrrest, hw⟩
              refine ⟨e, ?_, hcode⟩
              simp only [validateLoop, hpid, hpe, if_false, hval]
              exact herr

/-- **C4, counterexample.**  The claim quantifies over *any* graph with a
cycle reachable from the input roles and asserts `validateHierarchy`
fails with a HierarchyError.  Take the graph
`[C → missing, A → B, B → A]` and input `[A]`: the cycle `A → B → A` is
reachable (the chain from `A` returns to `A` after two steps) and
`resolveHierarchy` does fail with the wrapped `HIERARCHY_ERROR`, but
`validateHierarchy` validates `C` first and throws the dangling-parent
error with code `INVALID_ROLE` — not a HierarchyError, and naming the
missing parent rather than the cycle. -/
theorem C4_validate_not_hierarchy_error_counterexample :
    chainFn [roleDanglingC, roleCycleA, roleCycleB] roleCycleA 0
      = some roleCycleA ∧
    chainFn [roleDanglingC, roleCycleA, roleCycleB] roleCycleA 2
      = some roleCycleA ∧
    (resolveHierarchy { hierarchyCache := [] } [roleCycleA]
      [roleDanglingC, roleCycleA, roleCycleB] none).1 =
      some (Except.error hierarchyFailure) ∧
    validateHierarchy [roleDanglingC, roleCycleA, roleCycleB] =
      some (Except.error (parentNotFoundError "missing")) ∧
    (parentNotFoundError "missing").code = RbacErrorCode.INVALID_ROLE ∧
    (parentNotFoundError "missing").code ≠
      RbacErrorCode.HIERARCHY_ERROR := by
  exact ⟨rfl, rfl, rfl, rfl, rfl, by decide⟩

/-- **C4, amended.**  Over a role universe with a cycle reachable from
the input roles (no tenant supplied, resolution memo not primed for this
key), `resolveHierarchy` fails with the wrapped `HIERARCHY_ERROR`
(`hierarchyFailure`) rather than returning a partial resolution.
`validateHierarchy` over the same graph also fails with a
`HIERARCHY_ERROR` identifying a cycle *provided* the graph's role ids
are duplicate-free and every (truthy) parent reference resolves; when an
earlier-validated role has a dangling parent reference it fails with an
`INVALID_ROLE` error instead (which the counterexample forces the claim
to exclude). -/
theorem C4_cycle_resolution_and_validation_fail (st : HierarchyState)
    (userRoles allRoles : List Role)
    (hfresh : hierarchyLookup st
      (generateHierarchyCacheKey userRoles none) = none)
    (hcyc : ∃ r ∈ userRoles, ∃ i j, i < j ∧ ∃ ri rj,
      chainFn allRoles r i = some ri ∧ chainFn allRoles r j = some rj ∧
      ri.id = rj.id)
    (hnd : (allRoles.map Role.id).Nodup)
    (hres : ∀ r ∈ allRoles, ∀ pid, r.parentRoleId = some pid →
      pid ≠ "" → roleMapGet allRoles pid ≠ none)
    (hcycv : ∃ r ∈ allRoles, ∃ i j, 1 ≤ i ∧ i < j ∧ ∃ ri rj,
      chainFn allRoles r i = some ri ∧ chainFn allRoles r j = some rj ∧
      ri.id = rj.id) :
    (resolveHierarchy st userRoles allRoles none).1 =
      some (Except.error hierarchyFailure) ∧
    hierarchyFailure.code = RbacErrorCode.HIERARCHY_ERROR ∧
    (∃ e, validateHierarchy allRoles = some (Except.error e) ∧
      e.code = RbacErrorCode.HIERARCHY_ERROR) := by
  refine ⟨?_, rfl, ?_⟩
  · obtain ⟨e, herr⟩ := resolveLoop_error_of_cycle allRoles userRoles
      [] [] hcyc
    simp only [resolveHierarchy, hfresh, herr]
  · obtain ⟨r, hrmem, i, j, hi1, hij, ri, rj, hci, hcj, hid⟩ := hcycv
    have hbounded : ∃ i j, 1 ≤ i ∧ i < j ∧ j ≤ allRoles.length + 1 ∧
        ∃ ri rj, chainFn allRoles r i = some ri ∧
          chainFn allRoles r j = some rj ∧ ri.id = rj.id := by
      by_cases hj : j ≤ allRoles.length + 1
      · exact ⟨i, j, hi1, hij, hj, ri, rj, hci, hcj, hid⟩
      · have hall : chainFn allRoles r (allRoles.length + 1) ≠ none := by
          intro hnone
          rw [chainFn_none_mono allRoles r _ j (by omega) hnone] at hcj
          simp at hcj
        exact chain_pigeonhole allRoles r hall
    exact validateLoop_error_of_cycle allRoles hnd hres allRoles
      (fun r hr => hr) ⟨r, hrmem, hbounded⟩

/-- **C4, witness.** -/
theorem C4_cycle_witness :
    hierarchyLookup { hierarchyCache := [] }
      (generateHierarchyCacheKey [roleCycleA] none) = none ∧
    (resolveHierarchy { hierarchyCache := [] } [roleCycleA]
      [roleCycleA, roleCycleB] none).1 =
        some (Except.error hierarchyFailure) ∧
    hierarchyFailure.code = RbacErrorCode.HIERARCHY_ERROR ∧
    (∃ e, validateHierarchy [roleCycleA, roleCycleB] =
      some (Except.error e) ∧
      e.code = RbacErrorCode.HIERARCHY_ERROR) :=
  ⟨rfl,
   C4_cycle_resolution_and_validation_fail { hierarchyCache := [] }
     [roleCycleA] [roleCycleA, roleCycleB] rfl
     ⟨roleCycleA, by simp, 0, 2, by omega, roleCycleA, roleCycleA,
       rfl, rfl, rfl⟩
     (by decide)
     (by intro r hr pid hpid hpe
         rcases List.mem_cons.mp hr with rfl | hr2
         · simp only [roleCycleA] at hpid
           have hb : "B" = pid := Option.some.inj hpid
           subst hb
           decide
         · rcases List.mem_cons.mp hr2 with rfl | hr3
           · simp only [roleCycleB] at hpid
             have ha : "A" = pid := Option.some.inj hpid
             subst ha
             decide
           · simp at hr3)
     ⟨roleCycleA, by simp, 1, 3, by omega, by omega, roleCycleB,
       roleCycleB, rfl, rfl, rfl⟩⟩

/-- Characterization of a successful resolution along an acyclic,
terminating parent chain: the resolver returns, restores the active
path, and accumulates exactly the chain's members. -/
theorem resolveRec_ok_chain (allRoles : List Role) :
    ∀ (N fuel : Nat) (r : Role) (resolved : List Role)
      (path : List String),
      chainFn allRoles r (N + 1) = none →
      (∀ i j ri rj, chainFn allRoles r i = some ri →
        chainFn allRoles r j = some rj → ri.id = rj.id → i = j) →
      (∀ i ri, chainFn allRoles r i = some ri → ri.id ∉ path) →
      N + 1 ≤ fuel →
      ∃ out, resolveRec allRoles none fuel r resolved path =
        some (Except.ok (out, path)) ∧
        (∀ x, x ∈ out ↔ x ∈ resolved ∨
          ∃ n, chainFn allRoles r n = some x) := by
  intro N
  induction N with
  | zero =>
    intro fuel r resolved path hdead hinj hdisj hfuel
    rcases fuel with _ | f
    · omega
    · have hps : parentStep allRoles r = none := by
        have : chainFn allRoles r 1 = parentStep allRoles r := by
          simp [chainFn]
        rw [← this]
        exact hdead
      have hrp : r.id ∉ path := hdisj 0 r rfl
      refine ⟨setAdd resolved r, ?_, ?_⟩
      · simp only [resolveRec, hrp, if_false, tenantCuts_none,
          Bool.false_eq_true, hps]
        rw [setAdd_delete_cancel path r.id hrp]
      · intro x
        rw [setAdd_mem]
        constructor
        · rintro (hx | rfl)
          · exact Or.inl hx
          · exact Or.inr ⟨0, rfl⟩
        · rintro (hx | ⟨n, hn⟩)
          · exact Or.inl hx
          · rcases n with _ | n
            · exact Or.inr ((Option.some.inj hn).symm ▸ rfl)
            · rw [chainFn_none_mono allRoles r 1 (n + 1) (by omega)
                hdead] at hn
              simp at hn
  | succ N ih =>
    intro fuel r resolved path hdead hinj hdisj hfuel
    rcases fuel with _ | f
    · omega
    · have hrp : r.id ∉ path := hdisj 0 r rfl
      rcases hps : parentStep allRoles r with _ | p
      · have hdead1 : chainFn allRoles r 1 = none := by
          simp [chainFn, hps]
        refine ⟨setAdd resolved r, ?_, ?_⟩
        · simp only [resolveRec, hrp, if_false, tenantCuts_none,
            Bool.false_eq_true, hps]
          rw [setAdd_delete_cancel path r.id hrp]
        · intro x
          rw [setAdd_mem]
          constructor
          · rintro (hx | rfl)
            · exact Or.inl hx
            · exact Or.inr ⟨0, rfl⟩
          · rintro (hx | ⟨n, hn⟩)
            · exact Or.inl hx
            · rcases n with _ | n
              · exact Or.inr ((Option.some.inj hn).symm ▸ rfl)
              · rw [chainFn_none_mono allRoles r 1 (n + 1) (by omega)
                  hdead1] at hn
                simp at hn
      · have hshift : ∀ m : Nat, chainFn allRoles r (m + 1) =
            chainFn allRoles p m := chainFn_shift allRoles r p hps
        have hdead' : chainFn allRoles p (N + 1) = none := by
          rw [← hshift (N + 1)]
          exact hdead
        have hinj' : ∀ i j ri rj, chainFn allRoles p i = some ri →
            chainFn allRoles p j = some rj → ri.id = rj.id → i = j := by
          intro i j ri rj hci hcj hid
          have := hinj (i + 1) (j + 1) ri rj
            ((hshift i).symm ▸ hci) ((hshift j).symm ▸ hcj) hid
          omega
        have hdisj' : ∀ i ri, chainFn allRoles p i = some ri →
            ri.id ∉ setAdd path r.id := by
          intro i ri hci
          rw [setAdd_mem]
          rintro (hmem | hrid)
          · exact hdisj (i + 1) ri ((hshift i).symm ▸ hci) hmem
          · have := hinj (i + 1) 0 ri r ((hshift i).symm ▸ hci) rfl hrid
            omega
        obtain ⟨out, hok, hmem⟩ := ih f p (setAdd resolved r)
          (setAdd path r.id) hdead' hinj' hdisj' (by omega)
        refine ⟨out, ?_, ?_⟩
        · simp only [resolveRec, hrp, if_false, tenantCuts_none,
            Bool.false_eq_true, hps, hok]
          rw [setAdd_delete_cancel path r.id hrp]
        · intro x
          rw [hmem x, setAdd_mem]
          constructor
          · rintro ((hx | rfl) | ⟨n, hn⟩)
            · exact Or.inl hx
            · exact Or.inr ⟨0, rfl⟩
            · exact Or.inr ⟨n + 1, (hshift n).symm ▸ hn⟩
          · rintro (hx | ⟨n, hn⟩)
            · exact Or.inl (Or.inl hx)
            · rcases n with _ | n
              · exact Or.inl (Or.inr ((Option.some.inj hn).symm ▸ rfl))
              · exact Or.inr ⟨n, (hshift n) ▸ hn⟩

/-- **C5.**  For a role graph without cycles along the resolution chain
(no two chain positions within the pigeonhole bound carry the same role
id — the decidable rendering of acyclicity of the reachable part),
`resolveHierarchy([child], allRoles)` (fresh memo, no tenant) succeeds
without error and returns exactly the parent chain of `child`: `child`
itself and every ancestor reached by following `parentRoleId` until a
role with no parent or with an unresolvable (dangling or empty) parent
reference — the dangling role itself still included — and nothing else:
no siblings, no descendants. -/
theorem C5_resolveHierarchy_is_parent_chain (child : Role)
    (allRoles : List Role)
    (hnr : ∀ i, i < allRoles.length + 2 → ∀ j, j < allRoles.length + 2 →
      i < j →
      (chainFn allRoles child i).map Role.id ≠
        (chainFn allRoles child j).map Role.id ∨
      chainFn allRoles child j = none) :
    ∃ res, (resolveHierarchy { hierarchyCache := [] } [child] allRoles
      none).1 = some (Except.ok res) ∧
      (∀ x, x ∈ res ↔ ∃ n, chainFn allRoles child n = some x) := by
  have hdead : chainFn allRoles child (allRoles.length + 1) = none := by
    by_contra hne
    obtain ⟨i, j, _, hij, hjb, ri, rj, hci, hcj, hid⟩ :=
      chain_pigeonhole allRoles child hne
    rcases hnr i (by omega) j (by omega) hij with hne2 | hnone
    · rw [hci, hcj] at hne2
      simp [hid] at hne2
    · rw [hnone] at hcj
      simp at hcj
  have hinj : ∀ i j ri rj, chainFn allRoles child i = some ri →
      chainFn allRoles child j = some rj → ri.id = rj.id → i = j := by
    intro i j ri rj hci hcj hid
    by_contra hne
    have hkey : ∀ a b (ra rb : Role), a < b →
        chainFn allRoles child a = some ra →
        chainFn allRoles child b = some rb → ra.id = rb.id → False := by
      intro a b ra rb hab hca hcb hidab
      have hbb : b ≤ allRoles.length + 1 := by
        by_contra hbig
        rw [chainFn_none_mono allRoles child (allRoles.length + 1) b
          (by omega) hdead] at hcb
        simp at hcb
      rcases hnr a (by omega) b (by omega) hab with hne2 | hnone
      · rw [hca, hcb] at hne2
        simp [hidab] at hne2
      · rw [hnone] at hcb
        simp at hcb
    rcases Nat.lt_or_ge i j with h | h
    · exact hkey i j ri rj h hci hcj hid
    · have h' : j < i := by omega
      exact hkey j i rj ri h' hcj hci hid.symm
  obtain ⟨out, hok, hmem⟩ := resolveRec_ok_chain allRoles
    allRoles.length (hierarchyFuel allRoles) child [] [] hdead hinj
    (by intro i ri _; simp) (by simp [hierarchyFuel])
  refine ⟨out, ?_, ?_⟩
  · simp only [resolveHierarchy, hierarchyLookup, List.find?_nil,
      Option.map_none', resolveLoop, hok]
  · intro x
    rw [hmem x]
    simp

/-- **C5, witness.** -/
theorem C5_parent_chain_witness :
    (∀ i, i < ([roleAdminEx] : List Role).length + 2 →
      ∀ j, j < ([roleAdminEx] : List Role).length + 2 → i < j →
      (chainFn [roleAdminEx] roleManagerEx i).map Role.id ≠
        (chainFn [roleAdminEx] roleManagerEx j).map Role.id ∨
      chainFn [roleAdminEx] roleManagerEx j = none) ∧
    (∃ res, (resolveHierarchy { hierarchyCache := [] } [roleManagerEx]
      [roleAdminEx] none).1 = some (Except.ok res) ∧
      (∀ x, x ∈ res ↔ ∃ n, chainFn [roleAdminEx] roleManagerEx n =
        some x)) :=
  ⟨by decide, C5_resolveHierarchy_is_parent_chain roleManagerEx
    [roleAdminEx] (by decide)⟩

/-- **C6, witness.** -/
theorem C6_lru_eviction_and_touch_witness :
    ((("x" :: ["y"]) ++ ["z"]).Nodup ∧
     (∀ s ∈ ("x" :: ["y"]) ++ ["z"], s ≠ "")) ∧
    ((insertAllAt (LruCache.mk' Nat (2 : Int) 300000)
        (("x" :: ["y"]) ++ ["z"]) 1 0).keyList = ["y"] ++ ["z"] ∧
     (insertAllAt (LruCache.mk' Nat (2 : Int) 300000)
        (("x" :: ["y"]) ++ ["z"]) 1 0).entries.length = 2 ∧
     (2 ≤ 2 →
       ((((insertAllAt (LruCache.mk' Nat (2 : Int) 300000) ("x" :: ["y"])
           1 0).get "x" 0).2.set "z" 1 none 0).keyList =
         ["y"].tail ++ ["x", "z"] ∧
       "x" ∈ (((insertAllAt (LruCache.mk' Nat (2 : Int) 300000)
           ("x" :: ["y"]) 1 0).get "x" 0).2.set "z" 1 none
             0).keyList))) :=
  ⟨⟨by decide, by decide⟩,
   C6_lru_eviction_and_touch 2 "x" ["y"] "z" 1 0 300000 (by decide)
     (by decide) (by decide) (by decide)⟩

/-- **C1, witness.** -/
theorem C1_setUserContext_purges_new_userId_witness :
    regexLiteral ctxU2Ex.userId = true ∧
    setUserContextS stOldUserEx ctxU2Ex =
      { stOldUserEx with
          userContext := some ctxU2Ex,
          contextCache := stOldUserEx.contextCache.invalidatePattern
            (userCacheKeyPattern ctxU2Ex.userId),
          permissionCache := stOldUserEx.permissionCache.invalidatePattern
            (userCacheKeyPattern ctxU2Ex.userId),
          events := stOldUserEx.events ++
            [RbacEventType.CONTEXT_UPDATED] } :=
  ⟨by decide,
   C1_setUserContext_purges_new_userId stOldUserEx ctxU2Ex (by decide)⟩
